import Mathlib

/-!
Shallow embedding of the wind-visualization server core
(`src/server/logic/htm.py`, `src/server/logic/ingest.py`,
`src/server/app.py`, `src/server/ingest_data.py`) and proofs settling the
frozen claims about it.  Python floats are modelled by real numbers, Python
strings by Lean strings, `numpy` blobs by lists of rows, and the blob store
by a map from file-path strings to optional blobs.  Fallible Python code
(exceptions) is modelled with `Option`/`Except`.
-/

namespace WindViz

/-! ### Python string primitives

Python's `str.split(sep)`, `sep.join(parts)`, `str.replace(a, b)` and
`str.count(c)` for a single-character separator, modelled on the character
list underlying a Lean `String`. -/

def pySplitAux (c : Char) : List Char → List Char → List (List Char)
  | [], acc => [acc.reverse]
  | x :: xs, acc =>
    if x = c then acc.reverse :: pySplitAux c xs [] else pySplitAux c xs (x :: acc)

/-- Python `s.split(c)` for a one-character separator `c`. -/
def pySplit (s : String) (c : Char) : List String :=
  (pySplitAux c s.data []).map (fun l => (⟨l⟩ : String))

/-- Python `c.join(parts)` for a one-character separator `c`. -/
def pyJoin (c : Char) : List String → String
  | [] => ""
  | [s] => s
  | s :: t :: rest => s ++ String.mk [c] ++ pyJoin c (t :: rest)

/-- Python `s.count(c)` for a single character `c`. -/
def pyCount (s : String) (c : Char) : ℕ := s.data.count c

/-- Python `s.replace(a, b)` for single characters `a`, `b`. -/
def pyReplace (s : String) (a b : Char) : String :=
  ⟨s.data.map (fun x => if x = a then b else x)⟩

theorem strData_append (a b : String) : (a ++ b).data = a.data ++ b.data := rfl

theorem strMk_data (s : String) : (⟨s.data⟩ : String) = s := rfl

theorem pySplitAux_ne_nil (c : Char) (l acc : List Char) : pySplitAux c l acc ≠ [] := by
  induction l generalizing acc with
  | nil => simp [pySplitAux]
  | cons x xs ih =>
    simp only [pySplitAux]
    split
    · simp
    · exact ih _

theorem pySplit_ne_nil (s : String) (c : Char) : pySplit s c ≠ [] := by
  simp only [pySplit, ne_eq, List.map_eq_nil_iff]
  exact pySplitAux_ne_nil c s.data []

theorem pySplitAux_append (c : Char) (xs ys acc : List Char) :
    pySplitAux c (xs ++ c :: ys) acc = pySplitAux c xs acc ++ pySplitAux c ys [] := by
  induction xs generalizing acc with
  | nil => simp [pySplitAux]
  | cons x xs ih =>
    simp only [List.cons_append, pySplitAux]
    split
    · simp [ih]
    · exact ih _

theorem pySplitAux_no_sep (c : Char) (l acc : List Char) (h : c ∉ l) :
    pySplitAux c l acc = [acc.reverse ++ l] := by
  induction l generalizing acc with
  | nil => simp [pySplitAux]
  | cons x xs ih =>
    have hx : ¬(x = c) := fun hh => h (by simp [hh])
    have hxs : c ∉ xs := fun hh => h (by simp [hh])
    simp only [pySplitAux, if_neg hx]
    rw [ih _ hxs]
    simp

theorem pySplitAux_length (c : Char) (l acc : List Char) :
    (pySplitAux c l acc).length = l.count c + 1 := by
  induction l generalizing acc with
  | nil => simp [pySplitAux]
  | cons x xs ih =>
    simp only [pySplitAux]
    by_cases hx : x = c
    · subst hx
      rw [if_pos rfl]
      simp [ih, List.count_cons]
    · rw [if_neg hx, ih]
      simp [List.count_cons, hx]

theorem pySplit_length (s : String) (c : Char) :
    (pySplit s c).length = pyCount s c + 1 := by
  simp [pySplit, pyCount, pySplitAux_length, List.count]

/-- Splitting distributes over concatenation at a separator occurrence. -/
theorem pySplit_append (s t : String) (c : Char) :
    pySplit (s ++ String.mk [c] ++ t) c = pySplit s c ++ pySplit t c := by
  have hdata : (s ++ String.mk [c] ++ t).data = s.data ++ c :: t.data := by
    simp [strData_append]
  simp only [pySplit, hdata, pySplitAux_append, List.map_append]

/-- Appending a separator-free segment appends one path component. -/
theorem pySplit_append_seg (s seg : String) (c : Char) (h : c ∉ seg.data) :
    pySplit (s ++ String.mk [c] ++ seg) c = pySplit s c ++ [seg] := by
  rw [pySplit_append]
  simp only [pySplit, pySplitAux_no_sep c seg.data [] h]
  simp

theorem pyJoin_pySplitAux (c : Char) (l acc : List Char) :
    pyJoin c ((pySplitAux c l acc).map (fun d => (⟨d⟩ : String))) =
      ⟨acc.reverse ++ l⟩ := by
  induction l generalizing acc with
  | nil => simp [pySplitAux, pyJoin]
  | cons x xs ih =>
    simp only [pySplitAux]
    by_cases hx : x = c
    · subst hx
      rw [if_pos rfl]
      have hne := pySplitAux_ne_nil x xs []
      match hm : pySplitAux x xs [] with
      | [] => exact absurd hm hne
      | d :: ds =>
        simp only [List.map_cons, pyJoin]
        rw [← List.map_cons, ← hm, ih]
        apply String.ext
        simp [strData_append]
    · rw [if_neg hx, ih]
      apply String.ext
      simp [strData_append]

/-- `c.join(s.split(c)) = s` : join is a left inverse of split. -/
theorem pyJoin_pySplit (s : String) (c : Char) : pyJoin c (pySplit s c) = s := by
  simpa [pySplit] using pyJoin_pySplitAux c s.data []

theorem pyJoin_concat (c : Char) (l : List String) (x : String) (h : l ≠ []) :
    pyJoin c (l ++ [x]) = pyJoin c l ++ String.mk [c] ++ x := by
  induction l with
  | nil => exact absurd rfl h
  | cons a l ih =>
    match l with
    | [] => simp [pyJoin]
    | b :: l' =>
      have : pyJoin c ((a :: b :: l') ++ [x]) =
          a ++ String.mk [c] ++ pyJoin c ((b :: l') ++ [x]) := rfl
      rw [this, ih (by simp)]
      have h2 : pyJoin c (a :: b :: l') = a ++ String.mk [c] ++ pyJoin c (b :: l') := rfl
      rw [h2]
      apply String.ext
      simp [strData_append]

/-- Splitting a join of separator-free segments recovers the segments. -/
theorem pySplit_pyJoin (c : Char) (l : List String) (hne : l ≠ [])
    (h : ∀ s ∈ l, c ∉ s.data) : pySplit (pyJoin c l) c = l := by
  induction l with
  | nil => exact absurd rfl hne
  | cons a l ih =>
    match l with
    | [] =>
      simp only [pyJoin, pySplit]
      rw [pySplitAux_no_sep c a.data [] (h a (by simp))]
      simp
    | b :: l' =>
      have hj : pyJoin c (a :: b :: l') = a ++ String.mk [c] ++ pyJoin c (b :: l') := rfl
      rw [hj, pySplit_append, ih (by simp) (fun s hs => h s (by simp [hs]))]
      simp only [pySplit]
      rw [pySplitAux_no_sep c a.data [] (h a (by simp))]
      simp

theorem mem_pyJoin_data (c : Char) (l : List String) (x : Char)
    (hx : x ∈ (pyJoin c l).data) : x = c ∨ ∃ s ∈ l, x ∈ s.data := by
  induction l with
  | nil => simp [pyJoin] at hx
  | cons a l ih =>
    match l with
    | [] =>
      simp only [pyJoin] at hx
      exact Or.inr ⟨a, by simp, hx⟩
    | b :: l' =>
      have hj : pyJoin c (a :: b :: l') = a ++ String.mk [c] ++ pyJoin c (b :: l') := rfl
      rw [hj] at hx
      simp only [strData_append, List.mem_append] at hx
      rcases hx with (hx | hx) | hx
      · exact Or.inr ⟨a, by simp, hx⟩
      · simp at hx
        exact Or.inl hx
      · rcases ih hx with h | ⟨s, hs, hxs⟩
        · exact Or.inl h
        · exact Or.inr ⟨s, by simp [hs], hxs⟩

/-- Replacing `a` by `b` and back recovers a string that never contained `b`. -/
theorem pyReplace_injOn (s : String) (a b : Char) (h : b ∉ s.data) :
    pyReplace (pyReplace s a b) b a = s := by
  apply String.ext
  simp only [pyReplace, List.map_map]
  have : ∀ x ∈ s.data, (fun y => if y = b then a else y) ((fun y => if y = a then b else y) x) = x := by
    intro x hx
    by_cases hxa : x = a
    · simp [hxa]
    · have hxb : x ≠ b := fun hh => h (hh ▸ hx)
      simp [hxa, hxb]
  calc (s.data.map fun x => (fun y => if y = b then a else y) ((fun y => if y = a then b else y) x))
      = s.data.map id := List.map_congr_left this
    _ = s.data := by simp

/-- Python list indexing `l[i]` with negative-index wraparound; `none` models
an `IndexError`. -/
def pyIndex {α : Type _} (l : List α) (i : ℤ) : Option α :=
  if 0 ≤ i then l.get? i.toNat
  else if 0 ≤ (l.length : ℤ) + i then l.get? ((l.length : ℤ) + i).toNat
  else none

/-! ### Geometry primitives (`src/server/logic/htm.py`)

Floats become real numbers; `np.linalg.norm` is the Euclidean norm,
`np.dot`/`np.cross` the usual products.  `sys.float_info.epsilon` is the
exact rational `2⁻⁵²`. -/

/-- A 3-vector, the `coordinates_type` tuple of the source. -/
abbrev Vec3 : Type := ℝ × ℝ × ℝ

noncomputable section

def dot3 (a b : Vec3) : ℝ := a.1 * b.1 + a.2.1 * b.2.1 + a.2.2 * b.2.2

def cross3 (a b : Vec3) : Vec3 :=
  (a.2.1 * b.2.2 - a.2.2 * b.2.1,
   a.2.2 * b.1 - a.1 * b.2.2,
   a.1 * b.2.1 - a.2.1 * b.1)

def add3 (a b : Vec3) : Vec3 := (a.1 + b.1, a.2.1 + b.2.1, a.2.2 + b.2.2)

def sub3 (a b : Vec3) : Vec3 := (a.1 - b.1, a.2.1 - b.2.1, a.2.2 - b.2.2)

def norm3 (a : Vec3) : ℝ := Real.sqrt (a.1 ^ 2 + a.2.1 ^ 2 + a.2.2 ^ 2)

/-- Componentwise division of a vector by a scalar, `v / np.linalg.norm(v)`. -/
def divV (a : Vec3) (r : ℝ) : Vec3 := (a.1 / r, a.2.1 / r, a.2.2 / r)

/-- `sys.float_info.epsilon`, the machine epsilon of float64. -/
def EPSILON : ℝ := (2 ^ 52)⁻¹

def EARTH_RADIUS : ℝ := 6371000

def MAX_RADIUS : ℝ := 1000

def DETAILED_DEPTH : ℕ := 20

def radiansOf (x : ℝ) : ℝ := x * Real.pi / 180

def degreesOf (x : ℝ) : ℝ := x * 180 / Real.pi

/-- `lat_lon_to_xyz`. -/
def lat_lon_to_xyz (lat lon : ℝ) : Vec3 :=
  (Real.cos (radiansOf lat) * Real.cos (radiansOf lon),
   Real.cos (radiansOf lat) * Real.sin (radiansOf lon),
   Real.sin (radiansOf lat))

/-- `math.atan2`, by quadrant. -/
def atan2 (y x : ℝ) : ℝ :=
  if 0 < x then Real.arctan (y / x)
  else if x < 0 ∧ 0 ≤ y then Real.arctan (y / x) + Real.pi
  else if x < 0 ∧ y < 0 then Real.arctan (y / x) - Real.pi
  else if 0 < y then Real.pi / 2
  else if y < 0 then -(Real.pi / 2)
  else 0

/-- `xyz_to_lat_lon`. -/
def xyz_to_lat_lon (v : Vec3) : ℝ × ℝ :=
  (degreesOf (Real.arcsin v.2.2), degreesOf (atan2 v.2.1 v.1))

/-- `midpoint_xyz`: normalized sum of two points on the sphere. -/
def midpoint_xyz (a b : Vec3) : Vec3 := divV (add3 a b) (norm3 (add3 a b))

/-- `angle_between_np_vectors`, with the mandatory clamp to `[-1, 1]`. -/
def angle_between_np_vectors (a b : Vec3) : ℝ :=
  Real.arccos (max (-1) (min 1 (dot3 a b / (norm3 a * norm3 b))))

def sphere_surface_radius_to_angle (distance : ℝ) : ℝ := distance / EARTH_RADIUS

def angle_to_halfspace_distance (angle : ℝ) : ℝ := Real.cos angle

def sphere_surface_radius_to_halfspace_distance (distance : ℝ) : ℝ :=
  angle_to_halfspace_distance (sphere_surface_radius_to_angle distance)

/-! ### Halfspace and Trixel -/

structure Halfspace where
  vector : Vec3
  distance : ℝ

def Halfspace.arcangle (h : Halfspace) : ℝ := Real.arccos h.distance

end

inductive HalfspaceIntersection : Type where
  | OUTSIDE : HalfspaceIntersection
  | PARTIAL : HalfspaceIntersection
  | FULL : HalfspaceIntersection
deriving DecidableEq

structure Trixel where
  name : String
  vertices : Vec3 × Vec3 × Vec3

/-- `Trixel.depth`: the number of `-`-separated segments of the name. -/
def Trixel.depth (t : Trixel) : ℕ := (pySplit t.name '-').length

noncomputable section

/-- `Trixel.numba_contains`: the point is inside unless it is strictly
(beyond `EPSILON`) on the wrong side of one of the three edge planes. -/
def numba_contains (vert : Vec3 × Vec3 × Vec3) (x y z : ℝ) : Bool :=
  let p : Vec3 := (x, y, z)
  if dot3 (cross3 vert.1 vert.2.1) p < -EPSILON then false
  else if dot3 (cross3 vert.2.1 vert.2.2) p < -EPSILON then false
  else if dot3 (cross3 vert.2.2 vert.1) p < -EPSILON then false
  else true

def Trixel.contains (t : Trixel) (x y z : ℝ) : Bool := numba_contains t.vertices x y z

/-- `Trixel.get_midpoint`: normalized vertex sum. -/
def Trixel.get_midpoint (t : Trixel) : Vec3 :=
  divV (add3 (add3 t.vertices.1 t.vertices.2.1) t.vertices.2.2)
    (norm3 (add3 (add3 t.vertices.1 t.vertices.2.1) t.vertices.2.2))

/-- `Trixel.get_subtrixels`: the four children, in source order. -/
def Trixel.get_subtrixels (t : Trixel) : List Trixel :=
  let v0 := t.vertices.1
  let v1 := t.vertices.2.1
  let v2 := t.vertices.2.2
  let w0 := midpoint_xyz v1 v2
  let w1 := midpoint_xyz v2 v0
  let w2 := midpoint_xyz v0 v1
  [⟨t.name ++ "-0", (v0, w2, w1)⟩,
   ⟨t.name ++ "-1", (v1, w0, w2)⟩,
   ⟨t.name ++ "-2", (v2, w1, w0)⟩,
   ⟨t.name ++ "-3", (w0, w1, w2)⟩]

/-- Iterated subdivision: replace every trixel by its four children, `n` times. -/
def iterChildren : ℕ → List Trixel → List Trixel
  | 0, ts => ts
  | n + 1, ts => iterChildren n (ts.flatMap Trixel.get_subtrixels)

/-- `Trixel.get_subtrixels_at_depth`; `none` models the two `ValueError`s. -/
def Trixel.get_subtrixels_at_depth (t : Trixel) (depth : ℕ) : Option (List Trixel) :=
  if depth < 1 then none
  else if t.depth = depth then some [t]
  else if depth < t.depth then none
  else some (iterChildren (depth - t.depth - 1) t.get_subtrixels)

/-- The predicate behind step 6 of the cap classifier: the edge quadratic
has a (real) root `s ∈ [0, 1]`. -/
def hasRootIn01 (a b c : ℝ) : Prop :=
  ∃ s : ℝ, 0 ≤ s ∧ s ≤ 1 ∧ a * s ^ 2 + b * s + c = 0

/-- One edge's crossing test of `Trixel.intersects_halfspace`. -/
def edge_crossing (v : Vec3) (d : ℝ) (vi vj : Vec3) : Prop :=
  let u := Real.tan (angle_between_np_vectors vi vj / 2)
  let gi := dot3 v vi
  let gj := dot3 v vj
  hasRootIn01 (-(u ^ 2) * (gi + d)) (gi * (u ^ 2 - 1) + gj * (u ^ 2 + 1)) (gi - d)

open scoped Classical in
/-- `Trixel.intersects_halfspace`, translated step for step. -/
def Trixel.intersects_halfspace (t : Trixel) (halfspace : Halfspace) :
    HalfspaceIntersection :=
  let v := halfspace.vector
  let d := halfspace.distance
  let v0 := t.vertices.1
  let v1 := t.vertices.2.1
  let v2 := t.vertices.2.2
  if dot3 v v0 > d ∧ dot3 v v1 > d ∧ dot3 v v2 > d then .FULL
  else if dot3 v v0 > d ∨ dot3 v v1 > d ∨ dot3 v v2 > d then .PARTIAL
  else
    let vb0 := cross3 (sub3 v1 v0) (sub3 v2 v1)
    let v_bounding := divV vb0 (norm3 vb0)
    let d_bounding := dot3 v0 v_bounding
    let bounding := Halfspace.mk v_bounding d_bounding
    let theta_bounding := angle_between_np_vectors v v_bounding
    let arcangle_sum := halfspace.arcangle + bounding.arcangle
    if theta_bounding ≥ arcangle_sum then .OUTSIDE
    else if edge_crossing v d v0 v1 ∨ edge_crossing v d v1 v2 ∨
        edge_crossing v d v2 v0 then .PARTIAL
    else if dot3 (cross3 v0 v1) v < -EPSILON ∨ dot3 (cross3 v1 v2) v < -EPSILON ∨
        dot3 (cross3 v2 v0) v < -EPSILON then .OUTSIDE
    else .PARTIAL

/-! ### The octahedron roots -/

def octN0 : Trixel := ⟨"N0", ((1, 0, 0), (0, 0, 1), (0, -1, 0))⟩

def octN1 : Trixel := ⟨"N1", ((0, -1, 0), (0, 0, 1), (-1, 0, 0))⟩

def octN2 : Trixel := ⟨"N2", ((-1, 0, 0), (0, 0, 1), (0, 1, 0))⟩

def octN3 : Trixel := ⟨"N3", ((0, 1, 0), (0, 0, 1), (1, 0, 0))⟩

def octS0 : Trixel := ⟨"S0", ((1, 0, 0), (0, 0, -1), (0, 1, 0))⟩

def octS1 : Trixel := ⟨"S1", ((0, 1, 0), (0, 0, -1), (-1, 0, 0))⟩

def octS2 : Trixel := ⟨"S2", ((-1, 0, 0), (0, 0, -1), (0, -1, 0))⟩

def octS3 : Trixel := ⟨"S3", ((0, -1, 0), (0, 0, -1), (1, 0, 0))⟩

/-- `octahedron.values()`, in dict insertion order. -/
def octahedron_list : List Trixel :=
  [octN0, octN1, octN2, octN3, octS0, octS1, octS2, octS3]

/-- `octahedron[name]` as a partial lookup. -/
def octahedron_find (s : String) : Option Trixel :=
  if s = "N0" then some octN0
  else if s = "N1" then some octN1
  else if s = "N2" then some octN2
  else if s = "N3" then some octN3
  else if s = "S0" then some octS0
  else if s = "S1" then some octS1
  else if s = "S2" then some octS2
  else if s = "S3" then some octS3
  else none

/-- `find_octahedron_trixel_from_xyz`: the sign-pattern octant classifier. -/
def find_octahedron_trixel_from_xyz (x y z : ℝ) : Trixel :=
  if z > 0 then
    if y > 0 then (if x > 0 then octN3 else octN2)
    else (if x > 0 then octN0 else octN1)
  else
    if y > 0 then (if x > 0 then octS0 else octS1)
    else (if x > 0 then octS3 else octS2)

/-! ### Point descent and name resolution -/

/-- The inner `get_next` of `find_trixel_from_xyz`: first child containing
the point; `none` models the `ValueError`. -/
def get_next_trixel (t : Trixel) (x y z : ℝ) : Option Trixel :=
  t.get_subtrixels.find? (fun c => c.contains x y z)

def descend_trixel (x y z : ℝ) : ℕ → Trixel → Option Trixel
  | 0, t => some t
  | n + 1, t => (get_next_trixel t x y z).bind (descend_trixel x y z n)

/-- `find_trixel_from_xyz`. -/
def find_trixel_from_xyz (x y z : ℝ) (depth : ℕ) : Option Trixel :=
  if depth < 1 then none
  else descend_trixel x y z (depth - 1) (find_octahedron_trixel_from_xyz x y z)

/-- `find_trixel_from_lat_lon`. -/
def find_trixel_from_lat_lon (lat lon : ℝ) (depth : ℕ) : Option Trixel :=
  find_trixel_from_xyz (lat_lon_to_xyz lat lon).1 (lat_lon_to_xyz lat lon).2.1
    (lat_lon_to_xyz lat lon).2.2 depth

/-- One step of `find_trixel_from_name`: descend into the child selected by
the path segment. -/
def resolve_step (t : Trixel) (seg : String) : Option Trixel :=
  let ts := t.get_subtrixels
  if seg = "0" then ts.get? 0
  else if seg = "1" then ts.get? 1
  else if seg = "2" then ts.get? 2
  else if seg = "3" then ts.get? 3
  else none

def resolve_path (t : Trixel) : List String → Option Trixel
  | [] => some t
  | seg :: rest => (resolve_step t seg).bind (fun t' => resolve_path t' rest)

/-- `find_trixel_from_name`. -/
def find_trixel_from_name (name : String) : Option Trixel :=
  match pySplit name '-' with
  | [] => none
  | root :: rest => (octahedron_find root).bind (fun t => resolve_path t rest)

/-! ### Cap enumeration -/

/-- The classify-and-partition loop body of `get_all_trixels_to_depth`:
FULL trixels are selected, PARTIAL ones stay candidates, in encounter
order. -/
def classify_fold (H : Halfspace) : List Trixel → List Trixel × List Trixel
  | [] => ([], [])
  | t :: ts =>
    let rest := classify_fold H ts
    match t.intersects_halfspace H with
    | .FULL => (t :: rest.1, rest.2)
    | .PARTIAL => (rest.1, t :: rest.2)
    | .OUTSIDE => rest

/-- The `depth - 1` refinement rounds of `get_all_trixels_to_depth`. -/
def trixel_search_loop (H : Halfspace) : ℕ → List Trixel × List Trixel → List Trixel × List Trixel
  | 0, st => st
  | n + 1, st =>
    let round := classify_fold H (st.2.flatMap Trixel.get_subtrixels)
    trixel_search_loop H n (st.1 ++ round.1, round.2)

/-- `Halfspace.get_all_trixels_to_depth`. -/
def Halfspace.get_all_trixels_to_depth (H : Halfspace) (depth : ℕ) :
    Option (List Trixel) :=
  if depth < 1 then none
  else
    let fin := trixel_search_loop H (depth - 1) (classify_fold H octahedron_list)
    some (fin.1 ++ fin.2)

/-- `Halfspace.get_all_expanded_trixels_to_depth`. -/
def Halfspace.get_all_expanded_trixels_to_depth (H : Halfspace) (depth : ℕ) :
    Option (List Trixel) :=
  (H.get_all_trixels_to_depth depth).bind (fun ts =>
    (ts.mapM (fun t =>
      if t.depth = depth then some [t] else t.get_subtrixels_at_depth depth)).map
      List.flatten)

end

/-! ### Blob store model

A `numpy` blob is a list of rows `(lat, lon, altitude, u, v, w)`; the blob
store maps a file-path string to the blob saved there (`none` = no file,
so `np.load` on `none` is an error and `np.save` overwrites). -/

/-- One data row `(lat, lon, altitude, u, v, w)`. -/
def Row : Type := ℝ × ℝ × ℝ × ℝ × ℝ × ℝ

/-- The blob store: path → saved blob. -/
def BlobStore : Type := String → Option (List Row)

/-- `np.save`: overwrite the blob at a path. -/
def storeSet (σ : BlobStore) (k : String) (v : List Row) : BlobStore :=
  fun k' => if k' = k then some v else σ k'

/-- `os.path.join` for a relative second component. -/
def path_join (a b : String) : String := a ++ "/" ++ b

/-- The blob path of a trixel: `processed/<name with - as />/data.npy`. -/
def trixel_file_path (processed : String) (name : String) : String :=
  path_join (path_join processed (pyReplace name '-' '/')) "data.npy"

/-- `"-".join(name.split("-")[:-1])`: the parent trixel's name. -/
def parent_name (s : String) : String := pyJoin '-' ((pySplit s '-').dropLast)

/-- `parent_name` iterated: the `k`-th ancestor's name. -/
def anc : ℕ → String → String
  | 0, s => s
  | k + 1, s => parent_name (anc k s)

/-- The depth encoded in a trixel name (number of `-`-separated segments). -/
def name_depth (s : String) : ℕ := (pySplit s '-').length

def root_names : List String := ["N0", "N1", "N2", "N3", "S0", "S1", "S2", "S3"]

def digit_segs : List String := ["0", "1", "2", "3"]

/-- The trixel-name grammar `^(N0|..|S3)(-[0-3])*$`. -/
def valid_trixel_name (s : String) : Bool :=
  match pySplit s '-' with
  | [] => false
  | r :: rest => root_names.contains r && rest.all digit_segs.contains

/-! ### Ingest (`src/server/logic/ingest.py`) -/

def INGEST_MIN_DEPTH : ℕ := 10

def INGEST_MAX_DEPTH : ℕ := 20

/-- `ingest.Dataset`. -/
structure Dataset where
  name : String
  unprocessed_path : String
  processed_path : String
  utm_zone : ℤ
  utm_hemisphere : String
  utm_corner_min_x : ℤ
  utm_corner_min_y : ℤ
  utm_corner_max_x : ℤ
  utm_corner_max_y : ℤ
  layers : List String

/-- `ingest.Mapping`: the UTM-cell → trixel-name matrix. -/
structure Mapping where
  min_x : ℤ
  min_y : ℤ
  max_x : ℤ
  max_y : ℤ
  mapping : List (List String)

/-- `Mapping.get_trixel_name`: `self.mapping[y - min_y][x - min_x]` with
Python's indexing (no bounds check; negative indices wrap). -/
def Mapping.get_trixel_name (m : Mapping) (x y : ℤ) : Option String :=
  (pyIndex m.mapping (y - m.min_y)).bind (fun row => pyIndex row (x - m.min_x))

/-- The state threaded through one backfill pass: the store plus the
`next_trixels` set (as an insertion-ordered duplicate-free list). -/
structure BackfillState where
  store : BlobStore
  next : List String

/-- `next_trixels.add(parent)`: set insertion, modelled in first-insertion
order. -/
def add_to_set (l : List String) (n : String) : List String :=
  if n ∈ l then l else l ++ [n]

/-- The body of backfill's inner loop: load the child blob, concatenate it
onto the parent blob (if present), save the parent, record the parent.
`none` models `np.load` failing on a missing child file. -/
def backfill_one (processed : String) (st : BackfillState) (trixel_name : String) :
    Option BackfillState :=
  match st.store (trixel_file_path processed trixel_name) with
  | none => none
  | some trixel_data =>
    some ⟨storeSet st.store (trixel_file_path processed (parent_name trixel_name))
        (match st.store (trixel_file_path processed (parent_name trixel_name)) with
         | some parent_data => parent_data ++ trixel_data
         | none => trixel_data),
      add_to_set st.next (parent_name trixel_name)⟩

/-- One per-depth pass of `backfill_trixels`. -/
def backfill_pass (processed : String) (σ : BlobStore) (names : List String) :
    Option (BlobStore × List String) :=
  (names.foldlM (backfill_one processed) ⟨σ, []⟩).map (fun st => (st.store, st.next))

/-- The outer loop of `backfill_trixels` over the descending depth list,
accumulating `trixels_by_depth` entries. -/
def backfill_loop (processed : String) :
    List ℕ → BlobStore → List String → Option (BlobStore × List (ℕ × List String))
  | [], σ, _prev => some (σ, [])
  | d :: ds, σ, prev =>
    match backfill_pass processed σ prev with
    | none => none
    | some (σ', next) =>
      match backfill_loop processed ds σ' next with
      | none => none
      | some (σ'', rest) => some (σ'', (d, next) :: rest)

/-- `backfill_trixels`: `none` models the `IndexError` on an empty saved set
and the all-same-depth assertion failure.  Returns the final store and the
`trixels_by_depth` mapping. -/
def backfill_trixels (dataset : Dataset) (σ : BlobStore)
    (saved_trixels_list : List String) : Option (BlobStore × List (ℕ × List String)) :=
  match saved_trixels_list with
  | [] => none
  | s0 :: _ =>
    let saved_depth := pyCount s0 '-' + 1
    if saved_trixels_list.all (fun t => pyCount t '-' + 1 == saved_depth) then
      match backfill_loop dataset.processed_path
          ((List.range' INGEST_MIN_DEPTH (saved_depth - INGEST_MIN_DEPTH)).reverse)
          σ saved_trixels_list with
      | none => none
      | some (σ', byDepth) => some (σ', (saved_depth, saved_trixels_list) :: byDepth)
    else none

/-! ### Query surface (`src/server/app.py`) -/

/-- The serialized form `Trixel.lat_lon` produces: name plus lat/lon
vertices. -/
structure TrixelLatLon where
  name : String
  vertices : List (ℝ × ℝ)

noncomputable def Trixel.lat_lon (t : Trixel) : TrixelLatLon :=
  ⟨t.name, [xyz_to_lat_lon t.vertices.1, xyz_to_lat_lon t.vertices.2.1,
    xyz_to_lat_lon t.vertices.2.2]⟩

open scoped Classical in
/-- The `/trixels-in-radius` handler after parameter presence and float
parsing: validation then expanded cap enumeration at `DETAILED_DEPTH`.
`Except.error` is the 400 response. -/
noncomputable def trixels_in_radius (lat lon radius : ℝ) :
    Except String (List TrixelLatLon) :=
  if ¬(-90 ≤ lat ∧ lat ≤ 90) ∨ ¬(-180 ≤ lon ∧ lon ≤ 180) then
    .error "lat/lon out of range"
  else if radius < 0 then .error "radius negative"
  else if radius > MAX_RADIUS then .error "radius too large"
  else
    let halfspace := Halfspace.mk (lat_lon_to_xyz lat lon)
      (sphere_surface_radius_to_halfspace_distance radius)
    match halfspace.get_all_expanded_trixels_to_depth DETAILED_DEPTH with
    | none => .error "internal"
    | some trixels => .ok (trixels.map Trixel.lat_lon)

/-- OS-level path resolution: split on `/` and let `..` pop a segment.  The
filesystem behind `os.path.exists`/`np.load` is keyed by resolved paths. -/
def fsResolve (path : String) : List String :=
  (pySplit path '/').foldl
    (fun st seg => if seg = ".." then st.dropLast else st ++ [seg]) []

/-- The filesystem seen by the detailed-data handler: resolved path →
blob. -/
def ResolvedFs : Type := List String → Option (List Row)

/-- The `/detailed-by-trixel-names` handler after JSON decoding: validate
presence and dataset existence, then for each requested name read the blob
at `dataset_dir/<name with - as />/data.npy` (empty list when the file does
not exist).  No validation of the names themselves. -/
def detailed_by_trixel_names (fs : ResolvedFs) (dataset_names : List String)
    (server_dir dataset : String) (trixel_names : List String) :
    Except String (List (String × List Row)) :=
  if trixel_names = [] then .error "trixels required"
  else if dataset = "" then .error "dataset required"
  else if ¬(dataset ∈ dataset_names) then .error "dataset does not exist"
  else
    let dataset_dir := path_join (path_join (path_join server_dir "data") "processed") dataset
    .ok (trixel_names.map (fun nm =>
      let trixel_file := path_join (path_join dataset_dir (pyReplace nm '-' '/')) "data.npy"
      match fs (fsResolve trixel_file) with
      | none => (nm, [])
      | some d => (nm, d)))

/-! ### Ingest CLI (`src/server/ingest_data.py`) -/

/-- What the CLI sees of the operating system: path existence, `abspath`,
the dataset scan (`get_ingestable_datasets`, which only prints and skips on
bad datasets) and the per-dataset ingest, both of which can raise
(`Except.error`). -/
structure IngestFS where
  pathExists : String → Bool
  abspath : String → String
  scan : String → String → Except String (List Dataset)
  ingest : Dataset → Except String Unit

/-- `ingest_data.process_data`: returns early (no error) when the input
directory is missing. -/
def process_data (fs : IngestFS) (input_dir output_dir : String) :
    Except String Unit :=
  let unprocessed_dir := fs.abspath input_dir
  let processed_dir := fs.abspath output_dir
  if fs.pathExists unprocessed_dir = false then .ok ()
  else
    match fs.scan unprocessed_dir processed_dir with
    | .error e => .error e
    | .ok datasets =>
      if datasets.length = 0 then .ok ()
      else datasets.foldlM (fun _ d => fs.ingest d) ()

/-- The `__main__` block: exit 1 on an argument-count mismatch, else run
`process_data`; an uncaught exception exits 1, a normal return exits 0. -/
def ingest_cli (fs : IngestFS) (argv : List String) : ℕ :=
  match argv with
  | [_prog, input_dir, output_dir] =>
    match process_data fs input_dir output_dir with
    | .ok _ => 0
    | .error _ => 1
  | _ => 1

/-! ## Claim C3 : the cap classification procedure -/

open scoped Classical in
/-- The classification procedure exactly as §4.3 of the spec words it,
steps 1–8. -/
noncomputable def halfspace_classification_spec (H : Halfspace) (v0 v1 v2 : Vec3) :
    HalfspaceIntersection :=
  let v := H.vector
  let d := H.distance
  if dot3 v v0 > d ∧ dot3 v v1 > d ∧ dot3 v v2 > d then .FULL
  else if dot3 v v0 > d ∨ dot3 v v1 > d ∨ dot3 v v2 > d then .PARTIAL
  else
    let n := divV (cross3 (sub3 v1 v0) (sub3 v2 v1))
      (norm3 (cross3 (sub3 v1 v0) (sub3 v2 v1)))
    let d_b := dot3 v0 n
    let theta_b := Real.arccos d_b
    if angle_between_np_vectors v n ≥ H.arcangle + theta_b then .OUTSIDE
    else if edge_crossing v d v0 v1 ∨ edge_crossing v d v1 v2 ∨
        edge_crossing v d v2 v0 then .PARTIAL
    else if dot3 (cross3 v0 v1) v < -EPSILON ∨ dot3 (cross3 v1 v2) v < -EPSILON ∨
        dot3 (cross3 v2 v0) v < -EPSILON then .OUTSIDE
    else .PARTIAL

/-- C3: `intersects_halfspace` classifies every trixel against every
halfspace by exactly the specified procedure: FULL iff all three vertices
are strictly inside, else PARTIAL when some vertex is, else OUTSIDE when
the bounding cap is disjoint from the cap, else PARTIAL when some edge
quadratic has a root in `[0, 1]`, else OUTSIDE when the cap axis is
strictly beyond some edge plane, else PARTIAL. -/
theorem intersects_halfspace_follows_spec (t : Trixel) (H : Halfspace) :
    t.intersects_halfspace H =
      halfspace_classification_spec H t.vertices.1 t.vertices.2.1 t.vertices.2.2 := rfl

/-! ## Claim C4 : exact subdivision -/

/-- C4: `get_subtrixels` yields exactly the four children `P-0 … P-3`, in
this order, with vertex triples `(v0, w2, w1)`, `(v1, w0, w2)`,
`(v2, w1, w0)`, `(w0, w1, w2)` where `wᵢ` are the normalized edge-midpoint
sums `normalize(a + b)`. -/
theorem get_subtrixels_exact (name : String) (v0 v1 v2 : Vec3) :
    Trixel.get_subtrixels ⟨name, (v0, v1, v2)⟩ =
      [⟨name ++ "-0", (v0, divV (add3 v0 v1) (norm3 (add3 v0 v1)),
          divV (add3 v2 v0) (norm3 (add3 v2 v0)))⟩,
       ⟨name ++ "-1", (v1, divV (add3 v1 v2) (norm3 (add3 v1 v2)),
          divV (add3 v0 v1) (norm3 (add3 v0 v1)))⟩,
       ⟨name ++ "-2", (v2, divV (add3 v2 v0) (norm3 (add3 v2 v0)),
          divV (add3 v1 v2) (norm3 (add3 v1 v2)))⟩,
       ⟨name ++ "-3", (divV (add3 v1 v2) (norm3 (add3 v1 v2)),
          divV (add3 v2 v0) (norm3 (add3 v2 v0)),
          divV (add3 v0 v1) (norm3 (add3 v0 v1)))⟩] := rfl

/-! ## Claim C5 : ingest CLI exit codes -/

/-- A filesystem on which no path exists. -/
def missingInputFs : IngestFS :=
  ⟨fun _ => false, fun s => s, fun _ _ => .ok [], fun _ => .ok ()⟩

/-- C5 counterexample: with the input directory missing, `process_data`
prints a diagnostic and returns normally, so the CLI exits 0 — not
non-zero as claimed. -/
theorem ingest_cli_missing_input_exits_zero :
    missingInputFs.pathExists (missingInputFs.abspath "in") = false ∧
      ingest_cli missingInputFs ["ingest", "in", "out"] = 0 :=
  ⟨rfl, rfl⟩

/-- C5 (amended): the CLI exits 1 on an argument-count mismatch, but when
the input directory does not exist it prints a diagnostic and exits 0. -/
theorem ingest_cli_exit_codes (fs : IngestFS) (argv : List String)
    (prog inp outp : String) :
    (argv.length ≠ 3 → ingest_cli fs argv = 1) ∧
    (fs.pathExists (fs.abspath inp) = false → ingest_cli fs [prog, inp, outp] = 0) := by
  constructor
  · intro h
    match argv with
    | [] => rfl
    | [_] => rfl
    | [_, _] => rfl
    | [_, _, _] => exact absurd rfl h
    | _ :: _ :: _ :: _ :: _ => rfl
  · intro h
    simp [ingest_cli, process_data, h]

theorem ingest_cli_exit_codes_witness :
    ingest_cli missingInputFs ["x"] = 1 ∧ ingest_cli missingInputFs ["p", "i", "o"] = 0 :=
  ⟨(ingest_cli_exit_codes missingInputFs ["x"] "p" "i" "o").1 (by decide),
   (ingest_cli_exit_codes missingInputFs ["p", "i", "o"] "p" "i" "o").2 rfl⟩

/-! ## Claim C9 : path traversal in the detailed-data handler -/

def c9Rows : List Row := [((1 : ℝ), 2, 3, 4, 5, 6)]

/-- A filesystem with one blob: dataset `ds2`'s root-trixel chunk. -/
def c9Fs : ResolvedFs := fun p =>
  if p = ["srv", "data", "processed", "ds2", "N0", "data.npy"] then some c9Rows else none

/-- The file path the handler builds for dataset `ds1` and requested name
`..-ds2-N0`. -/
def c9File : String :=
  path_join (path_join (path_join (path_join (path_join "srv" "data") "processed") "ds1")
    (pyReplace "..-ds2-N0" '-' '/')) "data.npy"

/-- C9: the handler does not validate requested trixel names; the name
`..-ds2-N0` produces a path that resolves outside dataset `ds1`'s directory
(into `ds2`), and that foreign file's contents are returned. -/
theorem detailed_by_trixel_names_traversal :
    fsResolve c9File = ["srv", "data", "processed", "ds2", "N0", "data.npy"] ∧
    (fsResolve c9File).take 4 ≠ ["srv", "data", "processed", "ds1"] ∧
    detailed_by_trixel_names c9Fs ["ds1", "ds2"] "srv" "ds1" ["..-ds2-N0"] =
      .ok [("..-ds2-N0", c9Rows)] := by
  refine ⟨by decide, by decide, ?_⟩
  have hkey : c9Fs (fsResolve c9File) = some c9Rows := by
    rw [show fsResolve c9File = ["srv", "data", "processed", "ds2", "N0", "data.npy"]
      from by decide]
    simp [c9Fs]
  simp only [detailed_by_trixel_names, List.map]
  rw [if_neg (by decide), if_neg (by decide), if_neg (by decide)]
  rw [show (path_join (path_join (path_join (path_join (path_join "srv" "data")
    "processed") "ds1") (pyReplace "..-ds2-N0" '-' '/')) "data.npy") = c9File from rfl]
  rw [hkey]

/-! ## Claim C10 : unchecked mapping lookup -/

def exampleMapping : Mapping := ⟨0, 0, 1, 0, [["A", "B"]]⟩

/-- C10: in bounds, `Mapping.get_trixel_name` is plain (non-negative) list
indexing of the stored cell and succeeds; but there is no bounds check, and
for `x = -1 < min_x` on a concrete mapping it silently returns the name
stored for the different cell `(max_x, y)`. -/
theorem mapping_get_trixel_name_unchecked :
    (∀ (m : Mapping) (x y : ℤ),
      m.min_x ≤ x → x ≤ m.max_x → m.min_y ≤ y → y ≤ m.max_y →
      m.mapping.length = (m.max_y - m.min_y + 1).toNat →
      (∀ row ∈ m.mapping, row.length = (m.max_x - m.min_x + 1).toNat) →
      m.get_trixel_name x y =
        (m.mapping.get? (y - m.min_y).toNat).bind
          (fun row => row.get? (x - m.min_x).toNat) ∧
        (m.get_trixel_name x y).isSome = true) ∧
    (exampleMapping.get_trixel_name (-1) 0 = some "B" ∧
     exampleMapping.get_trixel_name 1 0 = some "B" ∧
     (-1 : ℤ) < exampleMapping.min_x) := by
  constructor
  · intro m x y hx1 hx2 hy1 hy2 hrows hcols
    have hy0 : 0 ≤ y - m.min_y := by omega
    have hx0 : 0 ≤ x - m.min_x := by omega
    have hlam : (fun row : List String => pyIndex row (x - m.min_x)) =
        (fun row => row.get? (x - m.min_x).toNat) := by
      funext row
      unfold pyIndex
      rw [if_pos hx0]
    have hplain : m.get_trixel_name x y =
        (m.mapping.get? (y - m.min_y).toNat).bind
          (fun row => row.get? (x - m.min_x).toNat) := by
      have hy : pyIndex m.mapping (y - m.min_y) = m.mapping.get? (y - m.min_y).toNat := by
        unfold pyIndex
        rw [if_pos hy0]
      rw [Mapping.get_trixel_name, hy, hlam]
    refine ⟨hplain, ?_⟩
    rw [hplain]
    have hylt : (y - m.min_y).toNat < m.mapping.length := by
      rw [hrows]; omega
    cases hrow : m.mapping.get? (y - m.min_y).toNat with
    | none =>
      have := List.get?_eq_none.mp hrow
      omega
    | some row =>
      have hmem : row ∈ m.mapping := List.get?_mem hrow
      have hxlt : (x - m.min_x).toNat < row.length := by
        rw [hcols row hmem]; omega
      rw [Option.some_bind, List.get?_eq_get hxlt]
      rfl
  · exact ⟨by decide, by decide, by decide⟩

theorem mapping_get_trixel_name_unchecked_witness :
    exampleMapping.get_trixel_name 0 0 =
      (exampleMapping.mapping.get? 0).bind (fun row => row.get? 0) ∧
      (exampleMapping.get_trixel_name 0 0).isSome = true := by
  have h := mapping_get_trixel_name_unchecked.1 exampleMapping 0 0 (by decide)
    (by decide) (by decide) (by decide) (by decide) (by decide)
  simpa using h

/-! ## Depth bookkeeping for subdivision -/

theorem name_depth_child (s seg : String) (h : '-' ∉ seg.data) :
    (pySplit (s ++ (String.mk ['-'] ++ seg)) '-').length = (pySplit s '-').length + 1 := by
  have hassoc : s ++ (String.mk ['-'] ++ seg) = s ++ String.mk ['-'] ++ seg :=
    String.ext (by simp [strData_append])
  rw [hassoc, pySplit_append_seg s seg '-' h]
  simp

theorem trixel_depth_pos (t : Trixel) : 1 ≤ t.depth := by
  have := pySplit_ne_nil t.name '-'
  unfold Trixel.depth
  cases h : pySplit t.name '-' with
  | nil => exact absurd h this
  | cons a l => simp

theorem mem_get_subtrixels_depth (t c : Trixel) (hc : c ∈ t.get_subtrixels) :
    c.depth = t.depth + 1 := by
  have h0 : ('-' : Char) ∉ ("0" : String).data := by decide
  have h1 : ('-' : Char) ∉ ("1" : String).data := by decide
  have h2 : ('-' : Char) ∉ ("2" : String).data := by decide
  have h3 : ('-' : Char) ∉ ("3" : String).data := by decide
  have e0 : ("-0" : String) = String.mk ['-'] ++ "0" := by apply String.ext; decide
  have e1 : ("-1" : String) = String.mk ['-'] ++ "1" := by apply String.ext; decide
  have e2 : ("-2" : String) = String.mk ['-'] ++ "2" := by apply String.ext; decide
  have e3 : ("-3" : String) = String.mk ['-'] ++ "3" := by apply String.ext; decide
  simp only [Trixel.get_subtrixels, List.mem_cons, List.mem_singleton,
    List.not_mem_nil, or_false] at hc
  rcases hc with hc | hc | hc | hc <;> subst hc <;>
    simp only [Trixel.depth, e0, e1, e2, e3] <;>
    [exact name_depth_child t.name "0" h0; exact name_depth_child t.name "1" h1;
     exact name_depth_child t.name "2" h2; exact name_depth_child t.name "3" h3]

theorem octahedron_list_depth (t : Trixel) (ht : t ∈ octahedron_list) : t.depth = 1 := by
  simp only [octahedron_list, List.mem_cons, List.not_mem_nil, or_false] at ht
  rcases ht with h | h | h | h | h | h | h | h <;> subst h <;> rfl

theorem iterChildren_depth (n : ℕ) :
    ∀ (ts : List Trixel) (d : ℕ), (∀ c ∈ ts, c.depth = d) →
      ∀ c ∈ iterChildren n ts, c.depth = d + n := by
  induction n with
  | zero => intro ts d h c hc; simpa using h c hc
  | succ n ih =>
    intro ts d h c hc
    have hstep : ∀ c ∈ ts.flatMap Trixel.get_subtrixels, c.depth = d + 1 := by
      intro c hc
      rcases List.mem_flatMap.mp hc with ⟨p, hp, hcp⟩
      rw [mem_get_subtrixels_depth p c hcp, h p hp]
    have := ih (ts.flatMap Trixel.get_subtrixels) (d + 1) hstep c hc
    omega

theorem classify_fold_subset (H : Halfspace) (ts : List Trixel) :
    (∀ t ∈ (classify_fold H ts).1, t ∈ ts) ∧ (∀ t ∈ (classify_fold H ts).2, t ∈ ts) := by
  induction ts with
  | nil => simp [classify_fold]
  | cons t ts ih =>
    cases h : t.intersects_halfspace H with
    | FULL =>
      simp only [classify_fold, h]
      constructor
      · intro u hu
        rcases List.mem_cons.mp hu with h' | h'
        · simp [h']
        · exact List.mem_cons_of_mem _ (ih.1 u h')
      · intro u hu
        exact List.mem_cons_of_mem _ (ih.2 u hu)
    | PARTIAL =>
      simp only [classify_fold, h]
      constructor
      · intro u hu
        exact List.mem_cons_of_mem _ (ih.1 u hu)
      · intro u hu
        rcases List.mem_cons.mp hu with h' | h'
        · simp [h']
        · exact List.mem_cons_of_mem _ (ih.2 u h')
    | OUTSIDE =>
      simp only [classify_fold, h]
      constructor
      · intro u hu
        exact List.mem_cons_of_mem _ (ih.1 u hu)
      · intro u hu
        exact List.mem_cons_of_mem _ (ih.2 u hu)

theorem trixel_search_loop_spec (H : Halfspace) (n : ℕ) :
    ∀ (sel cands : List Trixel) (d : ℕ),
      (∀ t ∈ sel, 1 ≤ t.depth ∧ t.depth ≤ d) → (∀ t ∈ cands, t.depth = d) →
      (∀ t ∈ (trixel_search_loop H n (sel, cands)).1, 1 ≤ t.depth ∧ t.depth ≤ d + n) ∧
      (∀ t ∈ (trixel_search_loop H n (sel, cands)).2, t.depth = d + n) := by
  induction n with
  | zero =>
    intro sel cands d hsel hcands
    constructor
    · intro t ht
      have := hsel t ht
      omega
    · intro t ht
      have := hcands t ht
      simpa using this
  | succ n ih =>
    intro sel cands d hsel hcands
    have hchild : ∀ t ∈ cands.flatMap Trixel.get_subtrixels, t.depth = d + 1 := by
      intro t ht
      rcases List.mem_flatMap.mp ht with ⟨p, hp, htp⟩
      rw [mem_get_subtrixels_depth p t htp, hcands p hp]
    have hround := classify_fold_subset H (cands.flatMap Trixel.get_subtrixels)
    have hsel' : ∀ t ∈ sel ++ (classify_fold H (cands.flatMap Trixel.get_subtrixels)).1,
        1 ≤ t.depth ∧ t.depth ≤ d + 1 := by
      intro t ht
      rcases List.mem_append.mp ht with h' | h'
      · have := hsel t h'
        omega
      · have := hchild t (hround.1 t h')
        constructor
        · exact this ▸ trixel_depth_pos t
        · omega
    have hcands' : ∀ t ∈ (classify_fold H (cands.flatMap Trixel.get_subtrixels)).2,
        t.depth = d + 1 := fun t ht => hchild t (hround.2 t ht)
    have := ih (sel ++ (classify_fold H (cands.flatMap Trixel.get_subtrixels)).1)
      (classify_fold H (cands.flatMap Trixel.get_subtrixels)).2 (d + 1) hsel' hcands'
    simp only [trixel_search_loop]
    constructor
    · intro t ht
      have h := this.1 t ht
      omega
    · intro t ht
      have h := this.2 t ht
      omega

theorem get_all_trixels_spec (H : Halfspace) (depth : ℕ) (h : 1 ≤ depth) :
    ∃ l, H.get_all_trixels_to_depth depth = some l ∧
      ∀ t ∈ l, 1 ≤ t.depth ∧ t.depth ≤ depth := by
  have hroots := classify_fold_subset H octahedron_list
  have hsel : ∀ t ∈ (classify_fold H octahedron_list).1, 1 ≤ t.depth ∧ t.depth ≤ 1 := by
    intro t ht
    have := octahedron_list_depth t (hroots.1 t ht)
    omega
  have hcands : ∀ t ∈ (classify_fold H octahedron_list).2, t.depth = 1 := fun t ht =>
    octahedron_list_depth t (hroots.2 t ht)
  have hloop := trixel_search_loop_spec H (depth - 1)
    (classify_fold H octahedron_list).1 (classify_fold H octahedron_list).2 1 hsel hcands
  refine ⟨(trixel_search_loop H (depth - 1) (classify_fold H octahedron_list)).1 ++
      (trixel_search_loop H (depth - 1) (classify_fold H octahedron_list)).2, ?_, ?_⟩
  · unfold Halfspace.get_all_trixels_to_depth
    rw [if_neg (by omega)]
  · intro t ht
    rcases List.mem_append.mp ht with h' | h'
    · have := hloop.1 t h'
      omega
    · have := hloop.2 t h'
      have hp := trixel_depth_pos t
      omega

theorem get_subtrixels_at_depth_spec (t : Trixel) (depth : ℕ) (h1 : 1 ≤ depth)
    (h2 : t.depth ≤ depth) :
    ∃ l, t.get_subtrixels_at_depth depth = some l ∧ ∀ c ∈ l, c.depth = depth := by
  unfold Trixel.get_subtrixels_at_depth
  rw [if_neg (by omega)]
  by_cases heq : t.depth = depth
  · rw [if_pos heq]
    exact ⟨[t], rfl, by simpa using heq⟩
  · rw [if_neg heq, if_neg (by omega)]
    refine ⟨_, rfl, ?_⟩
    intro c hc
    have hchild : ∀ c ∈ t.get_subtrixels, c.depth = t.depth + 1 := fun c hc =>
      mem_get_subtrixels_depth t c hc
    have := iterChildren_depth (depth - t.depth - 1) t.get_subtrixels (t.depth + 1) hchild c hc
    omega

theorem mapM_expand_spec (depth : ℕ) :
    ∀ ts : List Trixel, (∀ t ∈ ts, 1 ≤ t.depth ∧ t.depth ≤ depth) →
      ∃ out, ts.mapM (fun t =>
          if t.depth = depth then some [t] else t.get_subtrixels_at_depth depth) = some out ∧
        ∀ l ∈ out, ∀ c ∈ l, c.depth = depth := by
  intro ts
  induction ts with
  | nil =>
    intro _
    exact ⟨[], rfl, by simp⟩
  | cons t ts ih =>
    intro hts
    obtain ⟨out, hout, hall⟩ := ih (fun u hu => hts u (by simp [hu]))
    have ht := hts t (by simp)
    by_cases heq : t.depth = depth
    · refine ⟨[t] :: out, ?_, ?_⟩
      · rw [List.mapM_cons, if_pos heq, hout]
        rfl
      · intro l hl c hc
        rcases List.mem_cons.mp hl with h' | h'
        · subst h'
          simp only [List.mem_singleton] at hc
          subst hc
          exact heq
        · exact hall l h' c hc
    · obtain ⟨l0, hl0, hl0d⟩ := get_subtrixels_at_depth_spec t depth (by omega) ht.2
      refine ⟨l0 :: out, ?_, ?_⟩
      · rw [List.mapM_cons, if_neg heq, hl0, hout]
        rfl
      · intro l hl c hc
        rcases List.mem_cons.mp hl with h' | h'
        · subst h'
          exact hl0d c hc
        · exact hall l h' c hc

theorem get_all_expanded_spec (H : Halfspace) (depth : ℕ) (h : 1 ≤ depth) :
    ∃ l, H.get_all_expanded_trixels_to_depth depth = some l ∧
      ∀ t ∈ l, t.depth = depth := by
  obtain ⟨ts, hts, hall⟩ := get_all_trixels_spec H depth h
  obtain ⟨out, hout, houtd⟩ := mapM_expand_spec depth ts hall
  refine ⟨out.flatten, ?_, ?_⟩
  · unfold Halfspace.get_all_expanded_trixels_to_depth
    rw [hts, Option.some_bind, hout]
    rfl
  · intro t ht
    rcases List.mem_flatten.mp ht with ⟨l, hl, htl⟩
    exact houtd l hl t htl

/-! ## Claim C6 : expanded enumeration has uniform depth -/

/-- C6: every trixel returned by `get_all_expanded_trixels_to_depth` has
depth exactly the requested depth (shallower accepted trixels having been
replaced by their descendants at that depth). -/
theorem expanded_trixels_uniform_depth (H : Halfspace) (depth : ℕ) :
    ((H.get_all_expanded_trixels_to_depth depth).getD []).all
      (fun t => t.depth == depth) = true := by
  by_cases h : 1 ≤ depth
  · obtain ⟨l, hl, hall⟩ := get_all_expanded_spec H depth h
    rw [hl]
    simp only [Option.getD_some, List.all_eq_true, beq_iff_eq]
    exact hall
  · have hd : depth = 0 := by omega
    subst hd
    simp [Halfspace.get_all_expanded_trixels_to_depth, Halfspace.get_all_trixels_to_depth]

/-! ## Claim C8 : the trixels-in-radius endpoint -/

/-- C8: with all three parameters present and numeric, the request is
rejected with a 400 iff `lat ∉ [−90, 90]` or `lon ∉ [−180, 180]` or
`radius ∉ [0, MAX_RADIUS = 1000]`; otherwise it returns the expanded
enumeration at `DETAILED_DEPTH = 20` for
`Halfspace(lat_lon_to_xyz(lat, lon), cos(radius / EARTH_RADIUS))`. -/
theorem trixels_in_radius_spec (lat lon radius : ℝ) :
    MAX_RADIUS = 1000 ∧ DETAILED_DEPTH = 20 ∧
    ((∃ e, trixels_in_radius lat lon radius = .error e) ↔
      (lat < -90 ∨ 90 < lat ∨ lon < -180 ∨ 180 < lon ∨ radius < 0 ∨ MAX_RADIUS < radius)) ∧
    ((-90 ≤ lat ∧ lat ≤ 90 ∧ -180 ≤ lon ∧ lon ≤ 180 ∧ 0 ≤ radius ∧ radius ≤ MAX_RADIUS) →
      ∃ ts, (Halfspace.mk (lat_lon_to_xyz lat lon)
          (Real.cos (radius / EARTH_RADIUS))).get_all_expanded_trixels_to_depth
            DETAILED_DEPTH = some ts ∧
        trixels_in_radius lat lon radius = .ok (ts.map Trixel.lat_lon)) := by
  have hdist : sphere_surface_radius_to_halfspace_distance radius =
      Real.cos (radius / EARTH_RADIUS) := rfl
  have hok : (-90 ≤ lat ∧ lat ≤ 90 ∧ -180 ≤ lon ∧ lon ≤ 180 ∧ 0 ≤ radius ∧
      radius ≤ MAX_RADIUS) →
      ∃ ts, (Halfspace.mk (lat_lon_to_xyz lat lon)
          (Real.cos (radius / EARTH_RADIUS))).get_all_expanded_trixels_to_depth
            DETAILED_DEPTH = some ts ∧
        trixels_in_radius lat lon radius = .ok (ts.map Trixel.lat_lon) := by
    rintro ⟨h1, h2, h3, h4, h5, h6⟩
    obtain ⟨ts, hts, -⟩ := get_all_expanded_spec
      (Halfspace.mk (lat_lon_to_xyz lat lon)
        (sphere_surface_radius_to_halfspace_distance radius)) DETAILED_DEPTH
      (by norm_num [DETAILED_DEPTH])
    rw [hdist] at hts
    refine ⟨ts, hts, ?_⟩
    unfold trixels_in_radius
    rw [if_neg (by push_neg; exact ⟨⟨h1, h2⟩, h3, h4⟩), if_neg (by linarith),
      if_neg (by simp only [gt_iff_lt, not_lt]; linarith)]
    rw [← hdist] at hts
    simp only [hts]
  refine ⟨rfl, rfl, ⟨?_, ?_⟩, hok⟩
  · rintro ⟨e, he⟩
    by_contra hc
    push_neg at hc
    obtain ⟨g1, g2, g3, g4, g5, g6⟩ := hc
    obtain ⟨ts, -, hres⟩ := hok ⟨by linarith, by linarith, by linarith, by linarith,
      by linarith, by linarith⟩
    rw [hres] at he
    exact Except.noConfusion he
  · intro hcase
    by_cases c1 : ¬(-90 ≤ lat ∧ lat ≤ 90) ∨ ¬(-180 ≤ lon ∧ lon ≤ 180)
    · exact ⟨_, by unfold trixels_in_radius; rw [if_pos c1]⟩
    · by_cases c2 : radius < 0
      · exact ⟨_, by unfold trixels_in_radius; rw [if_neg c1, if_pos c2]⟩
      · by_cases c3 : radius > MAX_RADIUS
        · exact ⟨_, by unfold trixels_in_radius; rw [if_neg c1, if_neg c2, if_pos c3]⟩
        · exfalso
          push_neg at c1 c2 c3
          rcases hcase with h | h | h | h | h | h <;> [linarith [c1.1.1];
            linarith [c1.1.2]; linarith [c1.2.1]; linarith [c1.2.2]; linarith; linarith]

theorem trixels_in_radius_spec_witness :
    ∃ ts, (Halfspace.mk (lat_lon_to_xyz 0 0)
        (Real.cos (1 / EARTH_RADIUS))).get_all_expanded_trixels_to_depth
          DETAILED_DEPTH = some ts ∧
      trixels_in_radius 0 0 1 = .ok (ts.map Trixel.lat_lon) :=
  (trixels_in_radius_spec 0 0 1).2.2.2
    (by norm_num [MAX_RADIUS])

/-! ## Name and path algebra for backfill (claim C2) -/

theorem name_depth_eq_count (s : String) : name_depth s = pyCount s '-' + 1 :=
  pySplit_length s '-'

theorem root_names_no_dash : ∀ s ∈ root_names, '-' ∉ s.data := by decide

theorem digit_segs_no_dash : ∀ s ∈ digit_segs, '-' ∉ s.data := by decide

theorem root_names_no_slash : ∀ s ∈ root_names, '/' ∉ s.data := by decide

theorem digit_segs_no_slash : ∀ s ∈ digit_segs, '/' ∉ s.data := by decide

theorem valid_name_parts (s : String) (h : valid_trixel_name s = true) :
    ∃ r rest, pySplit s '-' = r :: rest ∧ r ∈ root_names ∧
      ∀ seg ∈ rest, seg ∈ digit_segs := by
  unfold valid_trixel_name at h
  cases hsp : pySplit s '-' with
  | nil =>
    rw [hsp] at h
    exact absurd h (by simp)
  | cons r rest =>
    rw [hsp] at h
    simp only [Bool.and_eq_true, List.all_eq_true] at h
    refine ⟨r, rest, rfl, ?_, ?_⟩
    · have h1 := h.1
      simpa using h1
    · intro seg hseg
      have h2 := h.2 seg hseg
      simpa using h2

theorem valid_of_parts (s : String) (r : String) (rest : List String)
    (hsp : pySplit s '-' = r :: rest) (hr : r ∈ root_names)
    (hrest : ∀ seg ∈ rest, seg ∈ digit_segs) : valid_trixel_name s = true := by
  unfold valid_trixel_name
  rw [hsp]
  simp only [Bool.and_eq_true, List.all_eq_true]
  constructor
  · simpa using hr
  · intro seg hseg
    simpa using hrest seg hseg

theorem valid_no_slash (s : String) (h : valid_trixel_name s = true) :
    '/' ∉ s.data := by
  obtain ⟨r, rest, hsp, hr, hrest⟩ := valid_name_parts s h
  intro hx
  have hs : s = pyJoin '-' (pySplit s '-') := (pyJoin_pySplit s '-').symm
  rw [hs] at hx
  rcases mem_pyJoin_data '-' _ '/' hx with h1 | ⟨seg, hseg, hxs⟩
  · exact absurd h1 (by decide)
  · rw [hsp] at hseg
    rcases List.mem_cons.mp hseg with h2 | h2
    · subst h2
      exact root_names_no_slash seg hr hxs
    · exact digit_segs_no_slash seg (hrest seg h2) hxs

theorem parent_name_valid (s : String) (h : valid_trixel_name s = true)
    (hd : 2 ≤ name_depth s) :
    valid_trixel_name (parent_name s) = true ∧
      name_depth (parent_name s) = name_depth s - 1 := by
  obtain ⟨r, rest, hsp, hr, hrest⟩ := valid_name_parts s h
  have hlen : rest.length + 1 = name_depth s := by
    rw [name_depth, hsp]
    simp
  have hrest_ne : rest ≠ [] := by
    intro hh
    rw [hh] at hlen
    simp at hlen
    omega
  have hdl : (r :: rest).dropLast = r :: rest.dropLast := by
    cases rest with
    | nil => exact absurd rfl hrest_ne
    | cons b l => rfl
  have hsplit_par : pySplit (parent_name s) '-' = r :: rest.dropLast := by
    rw [parent_name, hsp, hdl]
    apply pySplit_pyJoin
    · simp
    · intro seg hseg
      rcases List.mem_cons.mp hseg with h2 | h2
      · subst h2
        exact root_names_no_dash seg hr
      · exact digit_segs_no_dash seg (hrest seg (List.dropLast_subset rest h2))
  constructor
  · exact valid_of_parts _ r rest.dropLast hsplit_par hr
      (fun seg hseg => hrest seg (List.dropLast_subset rest hseg))
  · rw [name_depth, hsplit_par, name_depth, hsp]
    have : 0 < rest.length := List.length_pos.mpr hrest_ne
    simp [List.length_dropLast]
    omega

theorem anc_succ_def (k : ℕ) (s : String) : anc (k + 1) s = parent_name (anc k s) := rfl

theorem anc_valid (s : String) (D : ℕ) (h : valid_trixel_name s = true)
    (hD : name_depth s = D) :
    ∀ k, k < D → valid_trixel_name (anc k s) = true ∧ name_depth (anc k s) = D - k := by
  intro k
  induction k with
  | zero =>
    intro _
    exact ⟨h, by simpa [anc] using hD⟩
  | succ k ih =>
    intro hk
    obtain ⟨hv, hd⟩ := ih (by omega)
    have h2 : 2 ≤ name_depth (anc k s) := by omega
    obtain ⟨hv', hd'⟩ := parent_name_valid (anc k s) hv h2
    refine ⟨hv', ?_⟩
    rw [anc_succ_def, hd', hd]
    omega

theorem trixel_file_path_inj (p n1 n2 : String)
    (h1 : '/' ∉ n1.data) (h2 : '/' ∉ n2.data)
    (heq : trixel_file_path p n1 = trixel_file_path p n2) : n1 = n2 := by
  have hdata := congrArg String.data heq
  simp only [trixel_file_path, path_join, strData_append, List.append_assoc] at hdata
  have h3 := List.append_cancel_left hdata
  have h4 := List.append_cancel_left h3
  have h5 := List.append_cancel_right h4
  have hR : pyReplace n1 '-' '/' = pyReplace n2 '-' '/' := String.ext h5
  have hinj : pyReplace (pyReplace n1 '-' '/') '/' '-' =
      pyReplace (pyReplace n2 '-' '/') '/' '-' := by rw [hR]
  rwa [pyReplace_injOn n1 '-' '/' h1, pyReplace_injOn n2 '-' '/' h2] at hinj

theorem trixel_file_path_ne (p n1 n2 : String)
    (hv1 : valid_trixel_name n1 = true) (hv2 : valid_trixel_name n2 = true)
    (hne : n1 ≠ n2) : trixel_file_path p n1 ≠ trixel_file_path p n2 := by
  intro h
  exact hne (trixel_file_path_inj p n1 n2 (valid_no_slash n1 hv1) (valid_no_slash n2 hv2) h)

theorem trixel_file_path_ne_depth (p n1 n2 : String)
    (hv1 : valid_trixel_name n1 = true) (hv2 : valid_trixel_name n2 = true)
    (hdep : name_depth n1 ≠ name_depth n2) :
    trixel_file_path p n1 ≠ trixel_file_path p n2 :=
  trixel_file_path_ne p n1 n2 hv1 hv2 (fun hh => hdep (by rw [hh]))

/-! Small list/multiset summation helpers. -/

theorem filter_beq_nil (l : List String) (a : String) (h : a ∉ l) :
    l.filter (fun x => x == a) = [] := by
  induction l with
  | nil => rfl
  | cons b l ih =>
    have hba : ¬(b == a) = true := by
      simp only [beq_iff_eq]
      intro hh
      exact h (by simp [hh])
    simp only [List.filter_cons]
    rw [if_neg hba]
    exact ih (fun hh => h (by simp [hh]))

theorem filter_beq_singleton (l : List String) (a : String) (hnd : l.Nodup)
    (ha : a ∈ l) : l.filter (fun x => x == a) = [a] := by
  induction l with
  | nil => simp at ha
  | cons b l ih =>
    by_cases hba : b = a
    · subst hba
      have hbl : b ∉ l := (List.nodup_cons.mp hnd).1
      simp [List.filter_cons, filter_beq_nil l b hbl]
    · have hal : a ∈ l := by
        rcases List.mem_cons.mp ha with h | h
        · exact absurd h.symm hba
        · exact h
      simp only [List.filter_cons]
      rw [if_neg (by simp [hba]), ih (List.nodup_cons.mp hnd).2 hal]

theorem sum_map_add {α : Type _} {M : Type _} [AddCommMonoid M] (l : List α)
    (g h : α → M) :
    (l.map (fun c => g c + h c)).sum = (l.map g).sum + (l.map h).sum := by
  induction l with
  | nil => simp
  | cons a l ih =>
    simp only [List.map_cons, List.sum_cons, ih]
    abel

theorem sum_map_ite_eq {α : Type _} {M : Type _} [AddCommMonoid M] [DecidableEq α]
    (l : List α) (a : α) (x : M) (hnd : l.Nodup) :
    (l.map (fun c => if a = c then x else 0)).sum = if a ∈ l then x else 0 := by
  induction l with
  | nil => simp
  | cons b l ih =>
    simp only [List.map_cons, List.sum_cons]
    by_cases hab : a = b
    · subst hab
      rw [if_pos rfl, ih (List.nodup_cons.mp hnd).2,
        if_neg (List.nodup_cons.mp hnd).1, if_pos (by simp)]
      simp
    · rw [if_neg hab, ih (List.nodup_cons.mp hnd).2]
      by_cases hal : a ∈ l
      · rw [if_pos hal, if_pos (by simp [hal])]
        simp
      · rw [if_neg hal, if_neg (by simp [hab, hal])]
        simp

/-! ## Claim C7 : name roundtrip -/

/-- The trixels reachable from an octahedron root by repeated subdivision. -/
inductive ReachableTrixel : Trixel → Prop
  | root (t : Trixel) (ht : t ∈ octahedron_list) : ReachableTrixel t
  | child (t c : Trixel) (ht : ReachableTrixel t) (hc : c ∈ t.get_subtrixels) :
      ReachableTrixel c

theorem dash0_eq : ("-0" : String) = String.mk ['-'] ++ "0" := by
  apply String.ext; decide

theorem dash1_eq : ("-1" : String) = String.mk ['-'] ++ "1" := by
  apply String.ext; decide

theorem dash2_eq : ("-2" : String) = String.mk ['-'] ++ "2" := by
  apply String.ext; decide

theorem dash3_eq : ("-3" : String) = String.mk ['-'] ++ "3" := by
  apply String.ext; decide

theorem pySplit_append_dashseg (s seg : String) (h : '-' ∉ seg.data) :
    pySplit (s ++ (String.mk ['-'] ++ seg)) '-' = pySplit s '-' ++ [seg] := by
  have hassoc : s ++ (String.mk ['-'] ++ seg) = s ++ String.mk ['-'] ++ seg :=
    String.ext (by simp [strData_append])
  rw [hassoc, pySplit_append_seg s seg '-' h]

theorem resolve_path_append (xs : List String) (x : String) :
    ∀ t, resolve_path t (xs ++ [x]) =
      (resolve_path t xs).bind (fun u => resolve_step u x) := by
  induction xs with
  | nil =>
    intro t
    simp [resolve_path]
  | cons a xs ih =>
    intro t
    simp only [List.cons_append, resolve_path]
    cases resolve_step t a with
    | none => simp
    | some u => simp [ih u]

theorem find_trixel_from_name_unfold (nm : String) :
    find_trixel_from_name nm =
      match pySplit nm '-' with
      | [] => none
      | root :: rest => (octahedron_find root).bind (fun u => resolve_path u rest) := rfl

theorem find_trixel_from_name_cons (nm r : String) (rest : List String)
    (hsp : pySplit nm '-' = r :: rest) :
    find_trixel_from_name nm = (octahedron_find r).bind (fun u => resolve_path u rest) := by
  rw [find_trixel_from_name_unfold, hsp]

/-- Exact roundtrip: name resolution recovers a reachable trixel on the
nose. -/
theorem find_trixel_from_name_roundtrip (t : Trixel) (h : ReachableTrixel t) :
    find_trixel_from_name t.name = some t := by
  induction h with
  | root t ht =>
    simp only [octahedron_list, List.mem_cons, List.not_mem_nil, or_false] at ht
    rcases ht with h | h | h | h | h | h | h | h <;> subst h <;>
      (rw [find_trixel_from_name_unfold]) <;>
      [rw [show pySplit octN0.name '-' = ["N0"] from by decide];
       rw [show pySplit octN1.name '-' = ["N1"] from by decide];
       rw [show pySplit octN2.name '-' = ["N2"] from by decide];
       rw [show pySplit octN3.name '-' = ["N3"] from by decide];
       rw [show pySplit octS0.name '-' = ["S0"] from by decide];
       rw [show pySplit octS1.name '-' = ["S1"] from by decide];
       rw [show pySplit octS2.name '-' = ["S2"] from by decide];
       rw [show pySplit octS3.name '-' = ["S3"] from by decide]] <;>
      simp [octahedron_find, resolve_path]
  | child t c ht hc ih =>
    cases hsp : pySplit t.name '-' with
    | nil => exact absurd hsp (pySplit_ne_nil t.name '-')
    | cons r rest =>
      rw [find_trixel_from_name_cons t.name r rest hsp] at ih
      cases hof : octahedron_find r with
      | none =>
        rw [hof] at ih
        simp at ih
      | some t0 =>
        rw [hof, Option.some_bind] at ih
        have key : ∀ seg : String, '-' ∉ seg.data →
            find_trixel_from_name (t.name ++ (String.mk ['-'] ++ seg)) =
              resolve_step t seg := by
          intro seg hseg
          have hsp2 : pySplit (t.name ++ (String.mk ['-'] ++ seg)) '-' =
              r :: (rest ++ [seg]) := by
            rw [pySplit_append_dashseg t.name seg hseg, hsp]
            rfl
          rw [find_trixel_from_name_cons _ r (rest ++ [seg]) hsp2, hof,
            Option.some_bind, resolve_path_append, ih, Option.some_bind]
        simp only [Trixel.get_subtrixels, List.mem_cons, List.mem_singleton,
          List.not_mem_nil, or_false] at hc
        rcases hc with hc | hc | hc | hc <;> subst hc
        · rw [show (⟨t.name ++ "-0", (t.vertices.1,
              midpoint_xyz t.vertices.1 t.vertices.2.1,
              midpoint_xyz t.vertices.2.2 t.vertices.1)⟩ : Trixel).name =
            t.name ++ (String.mk ['-'] ++ "0") from by rw [← dash0_eq]]
          rw [key "0" (by decide)]
          simp [resolve_step, Trixel.get_subtrixels]
        · rw [show (⟨t.name ++ "-1", (t.vertices.2.1,
              midpoint_xyz t.vertices.2.1 t.vertices.2.2,
              midpoint_xyz t.vertices.1 t.vertices.2.1)⟩ : Trixel).name =
            t.name ++ (String.mk ['-'] ++ "1") from by rw [← dash1_eq]]
          rw [key "1" (by decide)]
          simp [resolve_step, Trixel.get_subtrixels]
        · rw [show (⟨t.name ++ "-2", (t.vertices.2.2,
              midpoint_xyz t.vertices.2.2 t.vertices.1,
              midpoint_xyz t.vertices.2.1 t.vertices.2.2)⟩ : Trixel).name =
            t.name ++ (String.mk ['-'] ++ "2") from by rw [← dash2_eq]]
          rw [key "2" (by decide)]
          simp [resolve_step, Trixel.get_subtrixels]
        · rw [show (⟨t.name ++ "-3", (midpoint_xyz t.vertices.2.1 t.vertices.2.2,
              midpoint_xyz t.vertices.2.2 t.vertices.1,
              midpoint_xyz t.vertices.1 t.vertices.2.1)⟩ : Trixel).name =
            t.name ++ (String.mk ['-'] ++ "3") from by rw [← dash3_eq]]
          rw [key "3" (by decide)]
          simp [resolve_step, Trixel.get_subtrixels]

/-- Componentwise closeness of two vectors. -/
def vec3_close (a b : Vec3) (tol : ℝ) : Prop :=
  |a.1 - b.1| ≤ tol ∧ |a.2.1 - b.2.1| ≤ tol ∧ |a.2.2 - b.2.2| ≤ tol

/-- C7: for every trixel reachable from an octahedron root by subdivision,
`find_trixel_from_name` recovers a trixel with the same name and identical
vertices (to within `1e−12`; here they agree exactly). -/
theorem find_trixel_from_name_preserves (t : Trixel) (h : ReachableTrixel t) :
    ∃ t', find_trixel_from_name t.name = some t' ∧ t'.name = t.name ∧
      vec3_close t'.vertices.1 t.vertices.1 (1 / 10 ^ 12) ∧
      vec3_close t'.vertices.2.1 t.vertices.2.1 (1 / 10 ^ 12) ∧
      vec3_close t'.vertices.2.2 t.vertices.2.2 (1 / 10 ^ 12) := by
  refine ⟨t, find_trixel_from_name_roundtrip t h, rfl, ?_, ?_, ?_⟩ <;>
    refine ⟨?_, ?_, ?_⟩ <;>
    simp only [sub_self, abs_zero] <;> norm_num

/-! ## Claim C1 : the point (lat 0, lon 0) -/

theorem lat_lon_to_xyz_00 : lat_lon_to_xyz 0 0 = ((1 : ℝ), 0, 0) := by
  simp [lat_lon_to_xyz, radiansOf]

theorem find_octahedron_100 : find_octahedron_trixel_from_xyz 1 0 0 = octS3 := by
  unfold find_octahedron_trixel_from_xyz
  rw [if_neg (by norm_num), if_neg (by norm_num), if_pos (by norm_num)]

theorem sqrt2_mul_self : Real.sqrt 2 * Real.sqrt 2 = 2 :=
  Real.mul_self_sqrt (by norm_num)

theorem sqrt2_pos : (0 : ℝ) < Real.sqrt 2 := Real.sqrt_pos.mpr (by norm_num)

theorem inv_sqrt2_sq : (1 / Real.sqrt 2) * (1 / Real.sqrt 2) = 1 / 2 := by
  rw [div_mul_div_comm, sqrt2_mul_self]
  norm_num

theorem midS3_w0 : midpoint_xyz ((0 : ℝ), 0, -1) ((1 : ℝ), 0, 0) =
    (1 / Real.sqrt 2, 0, -(1 / Real.sqrt 2)) := by
  unfold midpoint_xyz add3 divV norm3
  norm_num
  rw [neg_div, one_div]

theorem midS3_w1 : midpoint_xyz ((1 : ℝ), 0, 0) ((0 : ℝ), -1, 0) =
    (1 / Real.sqrt 2, -(1 / Real.sqrt 2), 0) := by
  unfold midpoint_xyz add3 divV norm3
  norm_num
  rw [neg_div, one_div]

theorem midS3_w2 : midpoint_xyz ((0 : ℝ), -1, 0) ((0 : ℝ), 0, -1) =
    (0, -(1 / Real.sqrt 2), -(1 / Real.sqrt 2)) := by
  unfold midpoint_xyz add3 divV norm3
  norm_num
  rw [neg_div, one_div]

theorem octS3_children : octS3.get_subtrixels =
    [⟨"S3-0", (((0 : ℝ), -1, 0), ((0 : ℝ), -(1 / Real.sqrt 2), -(1 / Real.sqrt 2)),
        (1 / Real.sqrt 2, -(1 / Real.sqrt 2), 0))⟩,
     ⟨"S3-1", (((0 : ℝ), 0, -1), ((1 / Real.sqrt 2 : ℝ), 0, -(1 / Real.sqrt 2)),
        ((0 : ℝ), -(1 / Real.sqrt 2), -(1 / Real.sqrt 2)))⟩,
     ⟨"S3-2", (((1 : ℝ), 0, 0), ((1 / Real.sqrt 2 : ℝ), -(1 / Real.sqrt 2), 0),
        ((1 / Real.sqrt 2 : ℝ), 0, -(1 / Real.sqrt 2)))⟩,
     ⟨"S3-3", (((1 / Real.sqrt 2 : ℝ), 0, -(1 / Real.sqrt 2)),
        ((1 / Real.sqrt 2 : ℝ), -(1 / Real.sqrt 2), 0),
        ((0 : ℝ), -(1 / Real.sqrt 2), -(1 / Real.sqrt 2)))⟩] := by
  show Trixel.get_subtrixels ⟨"S3", (((0 : ℝ), -1, 0), ((0 : ℝ), 0, -1), ((1 : ℝ), 0, 0))⟩ = _
  rw [Trixel.get_subtrixels]
  rw [show (⟨"S3", (((0 : ℝ), -1, 0), ((0 : ℝ), 0, -1), ((1 : ℝ), 0, 0))⟩ : Trixel).vertices.2.1 = ((0 : ℝ), 0, -1) from rfl]
  simp only [midS3_w0, midS3_w1, midS3_w2]
  rfl

theorem contains_S30_false :
    Trixel.contains ⟨"S3-0", (((0 : ℝ), -1, 0), ((0 : ℝ), -(1 / Real.sqrt 2), -(1 / Real.sqrt 2)),
      (1 / Real.sqrt 2, -(1 / Real.sqrt 2), 0))⟩ 1 0 0 = false := by
  have h2 : (1 / Real.sqrt 2) * (1 / Real.sqrt 2) = 1 / 2 := inv_sqrt2_sq
  simp only [Trixel.contains, numba_contains, dot3, cross3, EPSILON]
  split_ifs with h1 hc h3 <;> try rfl
  exfalso
  apply hc
  nlinarith [h2]

theorem contains_S31_false :
    Trixel.contains ⟨"S3-1", (((0 : ℝ), 0, -1), ((1 / Real.sqrt 2 : ℝ), 0, -(1 / Real.sqrt 2)),
      ((0 : ℝ), -(1 / Real.sqrt 2), -(1 / Real.sqrt 2)))⟩ 1 0 0 = false := by
  have h2 : (1 / Real.sqrt 2) * (1 / Real.sqrt 2) = 1 / 2 := inv_sqrt2_sq
  simp only [Trixel.contains, numba_contains, dot3, cross3, EPSILON]
  split_ifs with h1 hc h3 <;> try rfl
  exfalso
  apply hc
  nlinarith [h2]

theorem contains_S32_true :
    Trixel.contains ⟨"S3-2", (((1 : ℝ), 0, 0), ((1 / Real.sqrt 2 : ℝ), -(1 / Real.sqrt 2), 0),
      ((1 / Real.sqrt 2 : ℝ), 0, -(1 / Real.sqrt 2)))⟩ 1 0 0 = true := by
  have h2 : (1 / Real.sqrt 2) * (1 / Real.sqrt 2) = 1 / 2 := inv_sqrt2_sq
  have hsp := sqrt2_pos
  simp only [Trixel.contains, numba_contains, dot3, cross3, EPSILON]
  split_ifs with h1 hc h3 <;> try rfl
  · exfalso
    nlinarith [h1]
  · exfalso
    nlinarith [hc, h2]
  · exfalso
    nlinarith [h3]

theorem get_next_S3 : get_next_trixel octS3 1 0 0 =
    some ⟨"S3-2", (((1 : ℝ), 0, 0), ((1 / Real.sqrt 2 : ℝ), -(1 / Real.sqrt 2), 0),
      ((1 / Real.sqrt 2 : ℝ), 0, -(1 / Real.sqrt 2)))⟩ := by
  unfold get_next_trixel
  rw [octS3_children]
  rw [List.find?_cons_of_neg _ (by rw [contains_S30_false]; simp),
    List.find?_cons_of_neg _ (by rw [contains_S31_false]; simp),
    List.find?_cons_of_pos _ (by rw [contains_S32_true])]

theorem find_lat0_lon0_depth1 : find_trixel_from_lat_lon 0 0 1 = some octS3 := by
  unfold find_trixel_from_lat_lon
  rw [lat_lon_to_xyz_00]
  unfold find_trixel_from_xyz
  rw [if_neg (by norm_num)]
  simp only [descend_trixel]
  rw [find_octahedron_100]

theorem find_lat0_lon0_depth2 : find_trixel_from_lat_lon 0 0 2 =
    some ⟨"S3-2", (((1 : ℝ), 0, 0), ((1 / Real.sqrt 2 : ℝ), -(1 / Real.sqrt 2), 0),
      ((1 / Real.sqrt 2 : ℝ), 0, -(1 / Real.sqrt 2)))⟩ := by
  unfold find_trixel_from_lat_lon
  rw [lat_lon_to_xyz_00]
  unfold find_trixel_from_xyz
  rw [if_neg (by norm_num)]
  simp only [descend_trixel]
  rw [find_octahedron_100, get_next_S3]
  rfl

/-- C1 counterexample: at latitude 0 and longitude 0 the octant classifier
takes the `z ≤ 0, y ≤ 0, x > 0` branch, so depth-1 descent returns the
root `S3`, not `N0`. -/
theorem find_trixel_lat0_lon0_not_N0 :
    (find_trixel_from_lat_lon 0 0 1).map Trixel.name ≠ some "N0" := by
  rw [find_lat0_lon0_depth1]
  simp only [Option.map_some']
  intro h
  have := Option.some.inj h
  simp [octS3] at this

/-- C1 (amended): for the point at latitude 0, longitude 0, descent
returns the root trixel named `S3` at depth 1 and the trixel named `S3-2`
at depth 2 (consistent with the octant table `z≤0, y≤0, x>0 → S3`). -/
theorem find_trixel_lat0_lon0_names :
    (find_trixel_from_lat_lon 0 0 1).map Trixel.name = some "S3" ∧
    (find_trixel_from_lat_lon 0 0 2).map Trixel.name = some "S3-2" := by
  constructor
  · rw [find_lat0_lon0_depth1]
    rfl
  · rw [find_lat0_lon0_depth2]
    rfl

theorem find_trixel_from_name_preserves_witness :
    ∃ t', find_trixel_from_name octN0.name = some t' ∧ t'.name = octN0.name ∧
      vec3_close t'.vertices.1 octN0.vertices.1 (1 / 10 ^ 12) ∧
      vec3_close t'.vertices.2.1 octN0.vertices.2.1 (1 / 10 ^ 12) ∧
      vec3_close t'.vertices.2.2 octN0.vertices.2.2 (1 / 10 ^ 12) :=
  find_trixel_from_name_preserves octN0
    (ReachableTrixel.root octN0 (by simp [octahedron_list]))

/-! ## The backfill pass invariant (claim C2) -/

/-- The multiset of rows of the blob `σ` holds at trixel `c`'s path. -/
noncomputable def blobRows (p : String) (σ : BlobStore) (c : String) : Multiset Row :=
  ((σ (trixel_file_path p c)).getD [] : List Row)

/-- Invariant of backfill's inner loop after the prefix `P` of the child
list has been processed: `acc` is the set of parents seen so far (in first
insertion order), each parent blob is the concatenation of its processed
children's blobs, and no other path changed. -/
structure PassInv (p : String) (σstart : BlobStore) (P : List String)
    (σ : BlobStore) (acc : List String) : Prop where
  acc_nodup : acc.Nodup
  acc_mem : ∀ q, q ∈ acc ↔ ∃ c ∈ P, parent_name c = q
  acc_blob : ∀ q ∈ acc, ∃ b, σ (trixel_file_path p q) = some b ∧
    (↑b : Multiset Row) =
      ((P.filter (fun c => parent_name c == q)).map (blobRows p σstart)).sum
  frame : ∀ k, (∀ q ∈ acc, k ≠ trixel_file_path p q) → σ k = σstart k

theorem storeSet_same (σ : BlobStore) (k : String) (v : List Row) :
    storeSet σ k v k = some v := by
  simp [storeSet]

theorem storeSet_other (σ : BlobStore) (k : String) (v : List Row) (k' : String)
    (h : k' ≠ k) : storeSet σ k v k' = σ k' := by
  simp [storeSet, h]

theorem backfill_one_eq (p : String) (σ : BlobStore) (acc : List String) (c : String)
    (tdata : List Row) (hc : σ (trixel_file_path p c) = some tdata) :
    backfill_one p ⟨σ, acc⟩ c =
      some ⟨storeSet σ (trixel_file_path p (parent_name c))
          (match σ (trixel_file_path p (parent_name c)) with
           | some parent_data => parent_data ++ tdata
           | none => tdata),
        add_to_set acc (parent_name c)⟩ := by
  simp only [backfill_one]
  rw [hc]

theorem backfill_fold_spec (p : String) (σstart : BlobStore) (D : ℕ) (hD : 2 ≤ D) :
    ∀ (R P : List String) (σ : BlobStore) (acc : List String),
      (P ++ R).Nodup →
      (∀ c ∈ P ++ R, valid_trixel_name c = true ∧ name_depth c = D) →
      (∀ c ∈ P ++ R, (σstart (trixel_file_path p c)).isSome = true) →
      (∀ c ∈ P ++ R, σstart (trixel_file_path p (parent_name c)) = none) →
      PassInv p σstart P σ acc →
      ∃ σ' acc', List.foldlM (backfill_one p) (⟨σ, acc⟩ : BackfillState) R =
        some ⟨σ', acc'⟩ ∧ PassInv p σstart (P ++ R) σ' acc' := by
  intro R
  induction R with
  | nil =>
    intro P σ acc _ _ _ _ hinv
    exact ⟨σ, acc, rfl, by simpa using hinv⟩
  | cons c R ih =>
    intro P σ acc hnd hval hblob habs hinv
    have hcP : c ∈ P ++ c :: R := by simp
    obtain ⟨hcv, hcd⟩ := hval c hcP
    obtain ⟨hq0v, hq0d⟩ := parent_name_valid c hcv (by omega)
    rw [hcd] at hq0d
    have hacc_valid : ∀ q ∈ acc, valid_trixel_name q = true ∧ name_depth q = D - 1 := by
      intro q hq
      obtain ⟨c', hc', hpc'⟩ := (hinv.acc_mem q).mp hq
      obtain ⟨hv', hd'⟩ := hval c' (List.mem_append_left _ hc')
      have hpar := parent_name_valid c' hv' (by omega)
      rw [hpc'] at hpar
      exact ⟨hpar.1, by rw [hpar.2, hd']⟩
    have hσc : σ (trixel_file_path p c) = σstart (trixel_file_path p c) := by
      apply hinv.frame
      intro q hq
      obtain ⟨hqv, hqd⟩ := hacc_valid q hq
      exact trixel_file_path_ne_depth p c q hcv hqv (by omega)
    obtain ⟨tdata, htdata⟩ := Option.isSome_iff_exists.mp (hblob c hcP)
    have hσc' : σ (trixel_file_path p c) = some tdata := by rw [hσc, htdata]
    have hgetd : blobRows p σstart c = (↑tdata : Multiset Row) := by
      unfold blobRows
      rw [htdata]
      rfl
    have hstep := backfill_one_eq p σ acc c tdata hσc'
    by_cases hq0mem : parent_name c ∈ acc
    · -- the parent blob already exists: concatenate onto it
      obtain ⟨b, hb, hbsum⟩ := hinv.acc_blob (parent_name c) hq0mem
      rw [hb] at hstep
      rw [show (match (some b : Option (List Row)) with
          | some parent_data => parent_data ++ tdata
          | none => tdata) = b ++ tdata from rfl] at hstep
      rw [show add_to_set acc (parent_name c) = acc from by
        unfold add_to_set
        rw [if_pos hq0mem]] at hstep
      have hinv' : PassInv p σstart (P ++ [c])
          (storeSet σ (trixel_file_path p (parent_name c)) (b ++ tdata)) acc := by
        constructor
        · exact hinv.acc_nodup
        · intro q
          constructor
          · intro hq
            obtain ⟨c', hc', hpc'⟩ := (hinv.acc_mem q).mp hq
            exact ⟨c', List.mem_append_left _ hc', hpc'⟩
          · rintro ⟨c', hc', hpc'⟩
            rcases List.mem_append.mp hc' with h' | h'
            · exact (hinv.acc_mem q).mpr ⟨c', h', hpc'⟩
            · simp only [List.mem_singleton] at h'
              subst h'
              exact hpc' ▸ hq0mem
        · intro q hq
          by_cases hqq0 : q = parent_name c
          · subst hqq0
            refine ⟨b ++ tdata, storeSet_same _ _ _, ?_⟩
            rw [List.filter_append, List.map_append, List.sum_append]
            rw [show List.filter (fun c' => parent_name c' == parent_name c) [c] = [c]
              from by simp]
            simp only [List.map_cons, List.map_nil, List.sum_cons, List.sum_nil,
              add_zero]
            rw [hgetd, ← hbsum]
            exact Multiset.coe_add b tdata
          · obtain ⟨hqv, hqd⟩ := hacc_valid q hq
            obtain ⟨b', hb', hb'sum⟩ := hinv.acc_blob q hq
            refine ⟨b', ?_, ?_⟩
            · rw [storeSet_other _ _ _ _
                (trixel_file_path_ne p q (parent_name c) hqv hq0v hqq0)]
              exact hb'
            · rw [List.filter_append, List.map_append, List.sum_append]
              rw [show List.filter (fun c' => parent_name c' == q) [c] = [] from by
                have hne : ¬(parent_name c = q) := fun hh => hqq0 hh.symm
                simp [hne]]
              simp only [List.map_nil, List.sum_nil, add_zero]
              exact hb'sum
        · intro k hk
          rw [storeSet_other _ _ _ _ (hk (parent_name c) hq0mem)]
          exact hinv.frame k hk
      have hassoc : P ++ c :: R = (P ++ [c]) ++ R := by simp
      rw [hassoc] at hnd hval hblob habs
      obtain ⟨σ', acc', hfold, hinv''⟩ := ih (P ++ [c])
        (storeSet σ (trixel_file_path p (parent_name c)) (b ++ tdata)) acc
        hnd hval hblob habs hinv'
      refine ⟨σ', acc', ?_, ?_⟩
      · rw [List.foldlM_cons, hstep]
        simpa using hfold
      · rw [hassoc]
        exact hinv''
    · -- fresh parent: its blob starts as the child's data
      have hcond : ∀ q ∈ acc,
          trixel_file_path p (parent_name c) ≠ trixel_file_path p q := by
        intro q hq
        exact trixel_file_path_ne p (parent_name c) q hq0v (hacc_valid q hq).1
          (fun hh => hq0mem (hh ▸ hq))
      have hσq0 : σ (trixel_file_path p (parent_name c)) = none := by
        rw [hinv.frame _ hcond]
        exact habs c hcP
      rw [hσq0] at hstep
      rw [show (match (none : Option (List Row)) with
          | some parent_data => parent_data ++ tdata
          | none => tdata) = tdata from rfl] at hstep
      rw [show add_to_set acc (parent_name c) = acc ++ [parent_name c] from by
        unfold add_to_set
        rw [if_neg hq0mem]] at hstep
      have hinv' : PassInv p σstart (P ++ [c])
          (storeSet σ (trixel_file_path p (parent_name c)) tdata)
          (acc ++ [parent_name c]) := by
        constructor
        · rw [List.nodup_append]
          refine ⟨hinv.acc_nodup, List.nodup_singleton _, ?_⟩
          intro a ha hb'
          simp only [List.mem_singleton] at hb'
          subst hb'
          exact hq0mem ha
        · intro q
          constructor
          · intro hq
            rcases List.mem_append.mp hq with h' | h'
            · obtain ⟨c', hc', hpc'⟩ := (hinv.acc_mem q).mp h'
              exact ⟨c', List.mem_append_left _ hc', hpc'⟩
            · simp only [List.mem_singleton] at h'
              subst h'
              exact ⟨c, List.mem_append_right _ (by simp), rfl⟩
          · rintro ⟨c', hc', hpc'⟩
            rcases List.mem_append.mp hc' with h' | h'
            · exact List.mem_append_left _ ((hinv.acc_mem q).mpr ⟨c', h', hpc'⟩)
            · simp only [List.mem_singleton] at h'
              subst h'
              exact List.mem_append_right _ (by simp [← hpc'])
        · intro q hq
          rcases List.mem_append.mp hq with hqa | hqn
          · have hqq0 : q ≠ parent_name c := fun hh => hq0mem (hh ▸ hqa)
            obtain ⟨hqv, hqd⟩ := hacc_valid q hqa
            obtain ⟨b', hb', hb'sum⟩ := hinv.acc_blob q hqa
            refine ⟨b', ?_, ?_⟩
            · rw [storeSet_other _ _ _ _
                (trixel_file_path_ne p q (parent_name c) hqv hq0v hqq0)]
              exact hb'
            · rw [List.filter_append, List.map_append, List.sum_append]
              rw [show List.filter (fun c' => parent_name c' == q) [c] = [] from by
                have hne : ¬(parent_name c = q) := fun hh => hqq0 hh.symm
                simp [hne]]
              simp only [List.map_nil, List.sum_nil, add_zero]
              exact hb'sum
          · simp only [List.mem_singleton] at hqn
            subst hqn
            refine ⟨tdata, storeSet_same _ _ _, ?_⟩
            have hPempty :
                List.filter (fun c' => parent_name c' == parent_name c) P = [] := by
              rw [List.filter_eq_nil_iff]
              intro c' hc'
              simp only [beq_iff_eq]
              intro hh
              exact hq0mem ((hinv.acc_mem (parent_name c)).mpr ⟨c', hc', hh⟩)
            rw [List.filter_append, hPempty, List.nil_append,
              show List.filter (fun c' => parent_name c' == parent_name c) [c] = [c]
                from by simp]
            simp only [List.map_cons, List.map_nil, List.sum_cons, List.sum_nil,
              add_zero]
            rw [hgetd]
        · intro k hk
          rw [storeSet_other _ _ _ _
            (hk (parent_name c) (List.mem_append_right _ (by simp)))]
          exact hinv.frame k (fun q hq => hk q (List.mem_append_left _ hq))
      have hassoc : P ++ c :: R = (P ++ [c]) ++ R := by simp
      rw [hassoc] at hnd hval hblob habs
      obtain ⟨σ', acc', hfold, hinv''⟩ := ih (P ++ [c])
        (storeSet σ (trixel_file_path p (parent_name c)) tdata)
        (acc ++ [parent_name c]) hnd hval hblob habs hinv'
      refine ⟨σ', acc', ?_, ?_⟩
      · rw [List.foldlM_cons, hstep]
        simpa using hfold
      · rw [hassoc]
        exact hinv''

theorem backfill_pass_spec (p : String) (σstart : BlobStore) (D : ℕ) (hD : 2 ≤ D)
    (L : List String) (hnd : L.Nodup)
    (hval : ∀ c ∈ L, valid_trixel_name c = true ∧ name_depth c = D)
    (hblob : ∀ c ∈ L, (σstart (trixel_file_path p c)).isSome = true)
    (habs : ∀ c ∈ L, σstart (trixel_file_path p (parent_name c)) = none) :
    ∃ σ' next, backfill_pass p σstart L = some (σ', next) ∧
      next.Nodup ∧
      (∀ q, q ∈ next ↔ ∃ c ∈ L, parent_name c = q) ∧
      (∀ q ∈ next, ∃ b, σ' (trixel_file_path p q) = some b ∧
        (↑b : Multiset Row) =
          ((L.filter (fun c => parent_name c == q)).map (blobRows p σstart)).sum) ∧
      (∀ k, (∀ q ∈ next, k ≠ trixel_file_path p q) → σ' k = σstart k) := by
  have hinv0 : PassInv p σstart [] σstart [] :=
    ⟨List.nodup_nil, by simp, by simp, fun _ _ => rfl⟩
  obtain ⟨σ', acc', hfold, hinv⟩ := backfill_fold_spec p σstart D hD L [] σstart []
    hnd hval hblob habs hinv0
  refine ⟨σ', acc', ?_, hinv.acc_nodup, hinv.acc_mem, hinv.acc_blob, hinv.frame⟩
  unfold backfill_pass
  rw [hfold]
  rfl

theorem sum_filter_partition (p : String) (σref : BlobStore) (k : ℕ) (q : String)
    (cur : List String) (hnd : cur.Nodup) :
    ∀ saved : List String, (∀ s ∈ saved, anc k s ∈ cur) →
      ((cur.filter (fun c => parent_name c == q)).map
        (fun c => ((saved.filter (fun s => anc k s == c)).map (blobRows p σref)).sum)).sum
      = ((saved.filter (fun s => anc (k + 1) s == q)).map (blobRows p σref)).sum := by
  intro saved
  induction saved with
  | nil =>
    intro _
    simp
  | cons s rest ih =>
    intro hcov
    have hrest := ih (fun s' hs' => hcov s' (by simp [hs']))
    have hfun : ∀ c ∈ cur.filter (fun c => parent_name c == q),
        ((List.filter (fun s' => anc k s' == c) (s :: rest)).map (blobRows p σref)).sum
        = (if anc k s = c then blobRows p σref s else 0) +
          ((rest.filter (fun s' => anc k s' == c)).map (blobRows p σref)).sum := by
      intro c _
      simp only [List.filter_cons]
      by_cases h : anc k s = c
      · rw [if_pos (by simp [h]), if_pos h]
        simp
      · rw [if_neg (by simp [h]), if_neg h]
        simp
    rw [List.map_congr_left hfun, sum_map_add]
    have h1 : ((cur.filter (fun c => parent_name c == q)).map
        (fun c => if anc k s = c then blobRows p σref s else 0)).sum =
        if anc (k + 1) s = q then blobRows p σref s else 0 := by
      rw [sum_map_ite_eq _ _ _ (List.Nodup.filter _ hnd)]
      have hiff : (anc k s ∈ cur.filter (fun c => parent_name c == q)) ↔
          anc (k + 1) s = q := by
        rw [List.mem_filter]
        constructor
        · rintro ⟨-, hpq⟩
          rw [anc_succ_def]
          exact beq_iff_eq.mp hpq
        · intro hq'
          refine ⟨hcov s (by simp), ?_⟩
          rw [beq_iff_eq, ← anc_succ_def]
          exact hq'
      rw [if_congr hiff rfl rfl]
    rw [h1, hrest]
    simp only [List.filter_cons]
    by_cases hq' : anc (k + 1) s = q
    · rw [if_pos hq', if_pos (by simp [hq'])]
      simp
    · rw [if_neg hq', if_neg (by simp [hq'])]
      simp

/-- Invariant of backfill's outer loop: `cur` is exactly the set of `k`-th
ancestors of the saved leaves, each current blob is the union of its
saved descendants' rows, leaf blobs are untouched, and no blob exists yet
at the depths still to be filled. -/
structure LoopInv (p : String) (σref : BlobStore) (saved : List String) (k : ℕ)
    (cur : List String) (σ : BlobStore) : Prop where
  cur_nodup : cur.Nodup
  cur_mem : ∀ nm, nm ∈ cur ↔ ∃ s ∈ saved, anc k s = nm
  leaves : ∀ s ∈ saved, σ (trixel_file_path p s) = σref (trixel_file_path p s)
  cur_blob : ∀ nm ∈ cur, ∃ b, σ (trixel_file_path p nm) = some b ∧
    (↑b : Multiset Row) =
      ((saved.filter (fun s => anc k s == nm)).map (blobRows p σref)).sum
  below_none : ∀ s ∈ saved, ∀ j, k < j → j ≤ 10 →
    σ (trixel_file_path p (anc j s)) = none

theorem range'_reverse_succ (a n : ℕ) :
    (List.range' a (n + 1)).reverse = (a + n) :: (List.range' a n).reverse := by
  rw [List.range'_1_concat, List.reverse_append]
  rfl

theorem backfill_loop_spec (p : String) (σref : BlobStore) (saved : List String)
    (hval : ∀ s ∈ saved, valid_trixel_name s = true ∧ name_depth s = 20) :
    ∀ (n k : ℕ) (cur : List String) (σ : BlobStore),
      k + n ≤ 10 →
      LoopInv p σref saved k cur σ →
      ∃ σ' m, backfill_loop p ((List.range' (20 - k - n) n).reverse) σ cur =
          some (σ', m) ∧
        (∀ d names, (d, names) ∈ m →
          (∀ nm ∈ names, valid_trixel_name nm = true ∧ name_depth nm = d) ∧
          (∀ nm ∈ names, ∃ b, σ' (trixel_file_path p nm) = some b ∧
            (↑b : Multiset Row) =
              ((saved.filter (fun s => anc (20 - d) s == nm)).map
                (blobRows p σref)).sum)) ∧
        (∀ key, (∀ nm, valid_trixel_name nm = true → name_depth nm ≤ 19 - k →
            key ≠ trixel_file_path p nm) → σ' key = σ key) ∧
        (∀ s ∈ saved, σ' (trixel_file_path p s) = σref (trixel_file_path p s)) := by
  intro n
  induction n with
  | zero =>
    intro k cur σ _ hinv
    exact ⟨σ, [], rfl, by simp, fun _ _ => rfl, hinv.leaves⟩
  | succ n ih =>
    intro k cur σ hkn hinv
    have hcur_val : ∀ nm ∈ cur, valid_trixel_name nm = true ∧
        name_depth nm = 20 - k := by
      intro nm hnm
      obtain ⟨s, hs, rfl⟩ := (hinv.cur_mem nm).mp hnm
      exact anc_valid s 20 (hval s hs).1 (hval s hs).2 k (by omega)
    have hcur_blob : ∀ c ∈ cur, (σ (trixel_file_path p c)).isSome = true := by
      intro c hc
      obtain ⟨b, hb, -⟩ := hinv.cur_blob c hc
      rw [hb]
      rfl
    have hcur_pnone : ∀ c ∈ cur, σ (trixel_file_path p (parent_name c)) = none := by
      intro c hc
      obtain ⟨s, hs, rfl⟩ := (hinv.cur_mem c).mp hc
      rw [show parent_name (anc k s) = anc (k + 1) s from rfl]
      exact hinv.below_none s hs (k + 1) (by omega) (by omega)
    obtain ⟨σ1, next, hpass, hnext_nd, hnext_mem, hnext_blob, hframe1⟩ :=
      backfill_pass_spec p σ (20 - k) (by omega) cur hinv.cur_nodup hcur_val
        hcur_blob hcur_pnone
    have hnext_val : ∀ q ∈ next, valid_trixel_name q = true ∧
        name_depth q = 19 - k := by
      intro q hq
      obtain ⟨c, hc, rfl⟩ := (hnext_mem q).mp hq
      obtain ⟨hcv, hcd⟩ := hcur_val c hc
      have hp := parent_name_valid c hcv (by omega)
      refine ⟨hp.1, ?_⟩
      rw [hp.2, hcd]
      omega
    have hnext_mem' : ∀ nm, nm ∈ next ↔ ∃ s ∈ saved, anc (k + 1) s = nm := by
      intro nm
      rw [hnext_mem nm]
      constructor
      · rintro ⟨c, hc, rfl⟩
        obtain ⟨s, hs, rfl⟩ := (hinv.cur_mem c).mp hc
        exact ⟨s, hs, rfl⟩
      · rintro ⟨s, hs, rfl⟩
        exact ⟨anc k s, (hinv.cur_mem _).mpr ⟨s, hs, rfl⟩, rfl⟩
    have hinv1 : LoopInv p σref saved (k + 1) next σ1 := by
      constructor
      · exact hnext_nd
      · exact hnext_mem'
      · intro s hs
        have hs1 : σ1 (trixel_file_path p s) = σ (trixel_file_path p s) := by
          apply hframe1
          intro q hq
          obtain ⟨hqv, hqd⟩ := hnext_val q hq
          exact trixel_file_path_ne_depth p s q (hval s hs).1 hqv
            (by rw [(hval s hs).2]; omega)
        rw [hs1]
        exact hinv.leaves s hs
      · intro nm hnm
        obtain ⟨b, hb, hbsum⟩ := hnext_blob nm hnm
        refine ⟨b, hb, ?_⟩
        rw [hbsum]
        have hpoint : ∀ c ∈ cur.filter (fun c => parent_name c == nm),
            blobRows p σ c =
              ((saved.filter (fun s => anc k s == c)).map (blobRows p σref)).sum := by
          intro c hc
          have hc' : c ∈ cur := (List.mem_filter.mp hc).1
          obtain ⟨b', hb', hb'sum⟩ := hinv.cur_blob c hc'
          unfold blobRows
          rw [hb']
          exact hb'sum
        rw [List.map_congr_left hpoint]
        exact sum_filter_partition p σref k nm cur hinv.cur_nodup saved
          (fun s hs => (hinv.cur_mem _).mpr ⟨s, hs, rfl⟩)
      · intro s hs j hj hj10
        have hs1 : σ1 (trixel_file_path p (anc j s)) =
            σ (trixel_file_path p (anc j s)) := by
          apply hframe1
          intro q hq
          obtain ⟨hqv, hqd⟩ := hnext_val q hq
          obtain ⟨hav, had⟩ := anc_valid s 20 (hval s hs).1 (hval s hs).2 j (by omega)
          exact trixel_file_path_ne_depth p (anc j s) q hav hqv (by omega)
        rw [hs1]
        exact hinv.below_none s hs j (by omega) hj10
    obtain ⟨σ', m', hloop, hment, hframe', hleaves'⟩ := ih (k + 1) next σ1
      (by omega) hinv1
    have hds : (List.range' (20 - k - (n + 1)) (n + 1)).reverse =
        (19 - k) :: (List.range' (20 - (k + 1) - n) n).reverse := by
      rw [range'_reverse_succ]
      have h1 : 20 - k - (n + 1) + n = 19 - k := by omega
      have h2 : 20 - k - (n + 1) = 20 - (k + 1) - n := by omega
      rw [h1, h2]
    refine ⟨σ', (19 - k, next) :: m', ?_, ?_, ?_, hleaves'⟩
    · rw [hds]
      simp only [backfill_loop, hpass, hloop]
    · intro d names hdn
      rcases List.mem_cons.mp hdn with h' | h'
      · rw [Prod.mk.injEq] at h'
        obtain ⟨rfl, rfl⟩ := h'
        constructor
        · exact hnext_val
        · intro nm hnm
          obtain ⟨b, hb1, hbsum⟩ := hinv1.cur_blob nm hnm
          have htr : σ' (trixel_file_path p nm) = σ1 (trixel_file_path p nm) := by
            apply hframe'
            intro nm' hv' hd'
            obtain ⟨hqv, hqd⟩ := hnext_val nm hnm
            exact trixel_file_path_ne_depth p nm nm' hqv hv' (by omega)
          refine ⟨b, by rw [htr]; exact hb1, ?_⟩
          rw [show 20 - (19 - k) = k + 1 from by omega]
          exact hbsum
      · exact hment d names h'
    · intro key hkey
      have h1 : σ' key = σ1 key := by
        apply hframe'
        intro nm hv' hd'
        exact hkey nm hv' (by omega)
      rw [h1]
      apply hframe1
      intro q hq
      obtain ⟨hqv, hqd⟩ := hnext_val q hq
      exact hkey q hqv (by omega)

/-! ## Claim C2 : the backfill concatenation law -/

/-- C2: starting from a store whose only blobs are the saved depth-20 leaf
chunks (no ancestor blob present), `backfill_trixels` succeeds, and for
every depth `d` from `INGEST_MIN_DEPTH` to `INGEST_MAX_DEPTH − 1` and every
trixel name recorded at depth `d` in the returned mapping, the row multiset
of that trixel's blob equals the union (multiset sum) of the row multisets
of the blobs of its saved depth-20 descendants. -/
theorem backfill_trixels_concatenation (dataset : Dataset) (σref : BlobStore)
    (saved : List String) (hne : saved ≠ []) (hnd : saved.Nodup)
    (hval : ∀ s ∈ saved, valid_trixel_name s = true ∧
      name_depth s = INGEST_MAX_DEPTH)
    (hblob : ∀ s ∈ saved,
      (σref (trixel_file_path dataset.processed_path s)).isSome = true)
    (habs : ∀ s ∈ saved, ∀ j, 1 ≤ j → j ≤ 10 →
      σref (trixel_file_path dataset.processed_path (anc j s)) = none) :
    ∃ σ' m, backfill_trixels dataset σref saved = some (σ', m) ∧
      ∀ d names, (d, names) ∈ m → INGEST_MIN_DEPTH ≤ d → d < INGEST_MAX_DEPTH →
        ∀ nm ∈ names, ∃ b,
          σ' (trixel_file_path dataset.processed_path nm) = some b ∧
          (↑b : Multiset Row) =
            ((saved.filter (fun s => anc (INGEST_MAX_DEPTH - d) s == nm)).map
              (blobRows dataset.processed_path σref)).sum := by
  have hval20 : ∀ s ∈ saved, valid_trixel_name s = true ∧ name_depth s = 20 :=
    fun s hs => hval s hs
  have hinv0 : LoopInv dataset.processed_path σref saved 0 saved σref := by
    constructor
    · exact hnd
    · intro nm
      constructor
      · intro h
        exact ⟨nm, h, rfl⟩
      · rintro ⟨s, hs, rfl⟩
        exact hs
    · intro s _
      rfl
    · intro nm hnm
      obtain ⟨b, hb⟩ := Option.isSome_iff_exists.mp (hblob nm hnm)
      refine ⟨b, hb, ?_⟩
      have hfe : List.filter (fun s => anc 0 s == nm) saved =
          List.filter (fun s => s == nm) saved := rfl
      rw [hfe, filter_beq_singleton saved nm hnd hnm]
      simp only [List.map_cons, List.map_nil, List.sum_cons, List.sum_nil, add_zero]
      unfold blobRows
      rw [hb]
      rfl
    · intro s hs j hj hj10
      exact habs s hs j (by omega) hj10
  match saved, hne, hnd, hval20, hblob, habs, hinv0 with
  | s0 :: rest, _, hnd, hval20, hblob, habs, hinv0 =>
  have h20 : name_depth s0 = 20 := (hval20 s0 (by simp)).2
  have hcount : pyCount s0 '-' + 1 = 20 := by
    rw [← name_depth_eq_count]
    exact h20
  have hall : (s0 :: rest).all (fun t => pyCount t '-' + 1 == pyCount s0 '-' + 1) =
      true := by
    rw [List.all_eq_true]
    intro t ht
    have ht20 : name_depth t = 20 := (hval20 t ht).2
    rw [beq_iff_eq, ← name_depth_eq_count, ht20, hcount]
  obtain ⟨σ', m', hloop, hment, -, -⟩ := backfill_loop_spec dataset.processed_path
    σref (s0 :: rest) hval20 10 0 (s0 :: rest) σref (by omega) hinv0
  have hds : (List.range' INGEST_MIN_DEPTH (pyCount s0 '-' + 1 - INGEST_MIN_DEPTH)).reverse =
      (List.range' (20 - 0 - 10) 10).reverse := by
    rw [hcount]
    rfl
  refine ⟨σ', (pyCount s0 '-' + 1, s0 :: rest) :: m', ?_, ?_⟩
  · simp only [backfill_trixels]
    rw [if_pos hall, hds, hloop]
  · intro d names hdn hd10 hd20
    rcases List.mem_cons.mp hdn with h' | h'
    · exfalso
      rw [Prod.mk.injEq] at h'
      rw [hcount] at h'
      have : d = 20 := h'.1
      simp only [INGEST_MAX_DEPTH] at hd20
      omega
    · exact (hment d names h').2

noncomputable section

/-- A depth-20 leaf name: the root `N0` followed by nineteen `-0` steps. -/
def c2Leaf : String := "N0-0-0-0-0-0-0-0-0-0-0-0-0-0-0-0-0-0-0-0"

def c2Dataset : Dataset := ⟨"ds", "unp", "proc", 1, "N", 0, 0, 1, 1, ["a.xy"]⟩

/-- A store holding exactly the one leaf blob. -/
def c2Store : BlobStore := fun key =>
  if key = trixel_file_path c2Dataset.processed_path c2Leaf then some [] else none

end

theorem backfill_trixels_concatenation_witness :
    ∃ σ' m, backfill_trixels c2Dataset c2Store [c2Leaf] = some (σ', m) ∧
      ∀ d names, (d, names) ∈ m → INGEST_MIN_DEPTH ≤ d → d < INGEST_MAX_DEPTH →
        ∀ nm ∈ names, ∃ b,
          σ' (trixel_file_path c2Dataset.processed_path nm) = some b ∧
          (↑b : Multiset Row) =
            (([c2Leaf].filter (fun s => anc (INGEST_MAX_DEPTH - d) s == nm)).map
              (blobRows c2Dataset.processed_path c2Store)).sum := by
  have hv : valid_trixel_name c2Leaf = true := by decide
  have hd : name_depth c2Leaf = 20 := by decide
  apply backfill_trixels_concatenation c2Dataset c2Store [c2Leaf] (by simp) (by simp)
  · intro s hs
    simp only [List.mem_singleton] at hs
    subst hs
    exact ⟨hv, hd⟩
  · intro s hs
    simp only [List.mem_singleton] at hs
    subst hs
    simp [c2Store]
  · intro s hs j h1 h10
    simp only [List.mem_singleton] at hs
    subst hs
    obtain ⟨hav, had⟩ := anc_valid c2Leaf 20 hv hd j (by omega)
    have hne := trixel_file_path_ne_depth c2Dataset.processed_path (anc j c2Leaf)
      c2Leaf hav hv (by omega)
    simp only [c2Store]
    rw [if_neg hne]

end WindViz
